import Mathlib

/-!
Verification development for the data-preparation pipeline of a marketing
analytics dashboard (src/utils/data_prep.py).

The embedding models pandas dataframes as typed lists of rows.  Numeric
float64 cells are modelled by `FVal`: an exact rational together with the
IEEE special values +inf, -inf and NaN.  Rationals idealise binary floats:
every concrete value evaluated in this file is exactly representable, and
the universal theorems proved here depend only on the zero-guard structure
of the code, not on float precision.

Calendar dates are modelled as integers (any order-preserving injective
encoding of dates; concrete examples pick small integers).
-/

/-- Model of a pandas float64 cell: an exact rational, +inf, -inf or NaN. -/
inductive FVal where
  | num (q : ℚ)
  | pinf
  | ninf
  | nan
deriving DecidableEq, Repr

/-- IEEE-754 addition on modelled values (used by groupby sum). -/
def FVal.add : FVal → FVal → FVal
  | .num a, .num b => .num (a + b)
  | .nan, _ => .nan
  | _, .nan => .nan
  | .pinf, .ninf => .nan
  | .ninf, .pinf => .nan
  | .pinf, _ => .pinf
  | _, .pinf => .pinf
  | .ninf, _ => .ninf
  | _, .ninf => .ninf

/-- IEEE-754 multiplication on modelled values. -/
def FVal.mul : FVal → FVal → FVal
  | .num a, .num b => .num (a * b)
  | .nan, _ => .nan
  | _, .nan => .nan
  | .num a, .pinf => if 0 < a then .pinf else if a < 0 then .ninf else .nan
  | .pinf, .num a => if 0 < a then .pinf else if a < 0 then .ninf else .nan
  | .num a, .ninf => if 0 < a then .ninf else if a < 0 then .pinf else .nan
  | .ninf, .num a => if 0 < a then .ninf else if a < 0 then .pinf else .nan
  | .pinf, .pinf => .pinf
  | .pinf, .ninf => .ninf
  | .ninf, .pinf => .ninf
  | .ninf, .ninf => .pinf

/-- IEEE-754 division on modelled values.  Division of a finite nonzero
value by zero yields a signed infinity, 0/0 yields NaN: this is what a
pandas Series division produces (numpy emits a runtime warning but no
error).  Signed zeros are not distinguished. -/
def FVal.div : FVal → FVal → FVal
  | .num a, .num b =>
      if b ≠ 0 then .num (a / b)
      else if 0 < a then .pinf
      else if a < 0 then .ninf
      else .nan
  | .nan, _ => .nan
  | _, .nan => .nan
  | .pinf, .num b => if 0 ≤ b then .pinf else .ninf
  | .ninf, .num b => if 0 ≤ b then .ninf else .pinf
  | .num _, .pinf => .num 0
  | .num _, .ninf => .num 0
  | .pinf, .pinf => .nan
  | .pinf, .ninf => .nan
  | .ninf, .pinf => .nan
  | .ninf, .ninf => .nan

instance : Add FVal := ⟨FVal.add⟩

instance : Mul FVal := ⟨FVal.mul⟩

instance : Div FVal := ⟨FVal.div⟩

instance (n : Nat) : OfNat FVal n := ⟨FVal.num n⟩

/-- Comparison `x > 0` as numpy evaluates it elementwise: NaN compares
false, +inf compares true. -/
def FVal.gtZero : FVal → Bool
  | .num q => decide (0 < q)
  | .pinf => true
  | .ninf => false
  | .nan => false

/-- Effect of `fillna(0)` on one cell: NaN becomes 0, every other value
(including infinities) is kept. -/
def FVal.fill0 : FVal → FVal
  | .nan => .num 0
  | v => v

/-- Round half to even on a rational (the semantics of numpy rint). -/
def rhe (q : ℚ) : ℤ :=
  let f := ⌊q⌋
  let r := q - (f : ℚ)
  if r < 1/2 then f
  else if 1/2 < r then f + 1
  else if f % 2 = 0 then f else f + 1

/-- Effect of `.round(2)`: scale by 100, round half to even, scale back.
Infinities and NaN are unchanged, as with numpy round. -/
def FVal.round2 : FVal → FVal
  | .num q => .num ((rhe (q * 100) : ℚ) / 100)
  | v => v

/-- Raw cell of a column that `pd.to_numeric(errors=..coerce..)` will be
applied to: either an already numeric value (NaN for an empty cell) or a
non-numeric string. -/
inductive RawCell where
  | val (v : FVal)
  | text (s : String)
deriving DecidableEq, Repr

/-- Coercion of one cell by pd.to_numeric with coerce policy: non-numeric
text becomes NaN (missing), numeric values pass through. -/
def RawCell.toNum : RawCell → FVal
  | .val v => v
  | .text _ => .nan

/-- Raw date cell: either parseable to a calendar date (encoded as an
integer, order preserving) or an unparseable string. -/
inductive RawDate where
  | valid (d : ℤ)
  | invalid (s : String)
deriving DecidableEq, Repr

/-- Errors raised by the pandas operations the cleaning code performs:
pd.to_datetime with the default errors policy raises on an unparseable
date, and subscripting a dataframe with an absent column name raises a
KeyError. -/
inductive PdError where
  | parseDateError (s : String)
  | keyError (col : String)
deriving DecidableEq, Repr

/-- Mapping a fallible function over a list, stopping at the first error:
the behaviour of a pandas whole-column operation that raises. -/
def exceptMapList (f : α → Except PdError β) : List α → Except PdError (List β)
  | [] => .ok []
  | a :: l =>
    match f a with
    | .error e => .error e
    | .ok b =>
      match exceptMapList f l with
      | .error e => .error e
      | .ok bs => .ok (b :: bs)

/-! ## Business table (clean_business_data) -/

/-- Raw business record, with the column names already normalised
(the source replaces the character # by the token num and spaces by
underscores, so the CSV columns total revenue, gross profit, COGS,
num of orders become these field names).  total_revenue, gross_profit and
COGS are the columns the source coerces with pd.to_numeric; num_of_orders
is not in that list and is modelled as an already numeric column (possibly
NaN).  rowid is the positional identity of the record. -/
structure BizRawRow where
  date : RawDate
  total_revenue : RawCell
  gross_profit : RawCell
  COGS : RawCell
  num_of_orders : FVal
  rowid : Nat
deriving DecidableEq, Repr

/-- Raw business table. -/
structure BizDF where
  rows : List BizRawRow
deriving DecidableEq, Repr

/-- Cleaned business record produced by clean_business_data. -/
structure BizRow where
  date : ℤ
  total_revenue : FVal
  gross_profit : FVal
  COGS : FVal
  num_of_orders : FVal
  profit_margin : FVal
  avg_order_value : FVal
  rowid : Nat
deriving DecidableEq, Repr

/-- pd.to_datetime on one business date cell (default policy: raise). -/
def parseBizRow (r : BizRawRow) : Except PdError (ℤ × BizRawRow) :=
  match r.date with
  | .valid z => .ok (z, r)
  | .invalid s => .error (.parseDateError s)

/-- pd.to_datetime over the whole date column of the business table. -/
def parseBizDates (rows : List BizRawRow) : Except PdError (List (ℤ × BizRawRow)) :=
  exceptMapList parseBizRow rows

/-- Numeric coercion, fillna(0), and the two derived business metrics.
Source lines 41-42: profit_margin and avg_order_value are computed with a
plain division and NO zero-guard, unlike the ad metrics. -/
def deriveBizRow (p : ℤ × BizRawRow) : BizRow :=
  let r := p.2
  let tr := r.total_revenue.toNum.fill0
  let gp := r.gross_profit.toNum.fill0
  let cg := r.COGS.toNum.fill0
  let no := r.num_of_orders.fill0
  { date := p.1
    total_revenue := tr
    gross_profit := gp
    COGS := cg
    num_of_orders := no
    profit_margin := ((gp / tr) * 100).round2
    avg_order_value := (tr / no).round2
    rowid := r.rowid }

/-- drop_duplicates(subset=[date]) with the default keep policy: the first
record of each date is kept, later ones are discarded. -/
def dropDuplicatesByDate (seen : List ℤ) : List BizRow → List BizRow
  | [] => []
  | r :: rest =>
    if r.date ∈ seen then dropDuplicatesByDate seen rest
    else r :: dropDuplicatesByDate (r.date :: seen) rest

/-- Intermediate table of clean_business_data just before de-duplication:
dates parsed, columns renamed, numerics coerced, missing values filled,
derived metrics computed. -/
def bizDerivedRows (df : BizDF) : Except PdError (List BizRow) :=
  match parseBizDates df.rows with
  | .error e => .error e
  | .ok l => .ok (l.map deriveBizRow)

/-- clean_business_data (src/utils/data_prep.py lines 18-47). -/
def clean_business_data (df : BizDF) : Except PdError (List BizRow) :=
  match bizDerivedRows df with
  | .error e => .error e
  | .ok l => .ok (dropDuplicatesByDate [] l)

/-! ## Marketing tables (clean_marketing_data) -/

/-- Raw ad record.  The four metric columns are raw cells; rowid is the
positional identity of the record (standing in for the untouched payload
columns state and campaign). -/
structure MkRawRow where
  date : RawDate
  impression : RawCell
  clicks : RawCell
  spend : RawCell
  attributed_revenue : RawCell
  rowid : Nat
deriving DecidableEq, Repr

/-- Raw ad table.  The has-flags record which of the four expected metric
columns are present in the dataframe: the source only coerces a column
`if col in cleaned_df.columns`, but later subscripts the dataframe with
each of the four names unconditionally. -/
structure MkDF where
  rows : List MkRawRow
  hasImpression : Bool
  hasClicks : Bool
  hasSpend : Bool
  hasAttrRev : Bool
deriving DecidableEq, Repr

/-- Cleaned ad record produced by clean_marketing_data. -/
structure MkRow where
  date : ℤ
  platform : String
  impression : FVal
  clicks : FVal
  spend : FVal
  attributed_revenue : FVal
  ctr : FVal
  cpc : FVal
  roas : FVal
  cpm : FVal
  rowid : Nat
deriving DecidableEq, Repr

/-- pd.to_datetime on one ad date cell. -/
def parseMkRow (r : MkRawRow) : Except PdError (ℤ × MkRawRow) :=
  match r.date with
  | .valid z => .ok (z, r)
  | .invalid s => .error (.parseDateError s)

/-- pd.to_datetime over the date column of an ad table. -/
def parseMkDates (rows : List MkRawRow) : Except PdError (List (ℤ × MkRawRow)) :=
  exceptMapList parseMkRow rows

/-- First metric column whose unconditional subscript in the derived
metric block would raise a KeyError, in evaluation order: the ctr line
touches impression then clicks, the cpc line spend, the roas line
attributed revenue. -/
def firstMissingMetricCol (df : MkDF) : Option String :=
  if !df.hasImpression then some "impression"
  else if !df.hasClicks then some "clicks"
  else if !df.hasSpend then some "spend"
  else if !df.hasAttrRev then some "attributed revenue"
  else none

/-- Numeric coercion, fillna(0) and the four derived ad metrics of
clean_marketing_data (source lines 63-94).  Each ratio is computed under
an np.where guard on its denominator being > 0, yielding 0 otherwise. -/
def deriveMkRow (platform : String) (p : ℤ × MkRawRow) : MkRow :=
  let r := p.2
  let imp := r.impression.toNum.fill0
  let clk := r.clicks.toNum.fill0
  let spd := r.spend.toNum.fill0
  let rev := r.attributed_revenue.toNum.fill0
  { date := p.1
    platform := platform
    impression := imp
    clicks := clk
    spend := spd
    attributed_revenue := rev
    ctr := if imp.gtZero then ((clk / imp) * 100).round2 else 0
    cpc := if clk.gtZero then (spd / clk).round2 else 0
    roas := if spd.gtZero then (rev / spd).round2 else 0
    cpm := if imp.gtZero then ((spd / imp) * 1000).round2 else 0
    rowid := r.rowid }

/-- clean_marketing_data (src/utils/data_prep.py lines 49-99): parse the
date column (raising on an unparseable date), tag the platform, coerce the
metric columns that are present, fill missing values, derive ctr, cpc,
roas and cpm (raising a KeyError at the first absent metric column), and
finally drop the rows whose impression is not > 0. -/
def clean_marketing_data (df : MkDF) (platform : String) : Except PdError (List MkRow) :=
  match parseMkDates df.rows with
  | .error e => .error e
  | .ok dated =>
    match firstMissingMetricCol df with
    | some c => .error (.keyError c)
    | none => .ok ((dated.map (deriveMkRow platform)).filter (fun r => r.impression.gtZero))

/-! ## Daily aggregation and unified dataset (create_unified_dataset) -/

/-- Row of the daily_marketing table: the combined ad table aggregated by
date (groupby sums) with the two daily ratio columns. -/
structure DailyRow where
  date : ℤ
  spend : FVal
  attributed_revenue : FVal
  clicks : FVal
  impression : FVal
  daily_roas : FVal
  daily_ctr : FVal
deriving DecidableEq, Repr

/-- Sum of a column over a group of ad rows, in table order. -/
def sumBy (f : MkRow → FVal) (l : List MkRow) : FVal :=
  l.foldl (fun acc r => acc + f r) 0

/-- Insert an integer into an ascending list, used to model the sorted
group keys that pandas groupby produces. -/
def insertSortedZ (z : ℤ) : List ℤ → List ℤ
  | [] => [z]
  | y :: ys => if z ≤ y then z :: y :: ys else y :: insertSortedZ z ys

/-- Ascending insertion sort on integers. -/
def sortZ (l : List ℤ) : List ℤ :=
  l.foldr insertSortedZ []

/-- Distinct dates of the combined ad table in ascending order: the group
keys of groupby(date), which pandas sorts. -/
def uniqueDatesSorted (mk : List MkRow) : List ℤ :=
  sortZ (mk.map (fun r => r.date)).dedup

/-- groupby(date).agg(sum of spend, attributed revenue, clicks and
impression) followed by the guarded daily_roas and daily_ctr columns
(source lines 122-145). -/
def groupbyDate (mk : List MkRow) : List DailyRow :=
  (uniqueDatesSorted mk).map (fun d =>
    let g := mk.filter (fun r => r.date == d)
    let spd := sumBy (fun r => r.spend) g
    let rev := sumBy (fun r => r.attributed_revenue) g
    let clk := sumBy (fun r => r.clicks) g
    let imp := sumBy (fun r => r.impression) g
    { date := d
      spend := spd
      attributed_revenue := rev
      clicks := clk
      impression := imp
      daily_roas := if spd.gtZero then (rev / spd).round2 else 0
      daily_ctr := if imp.gtZero then ((clk / imp) * 100).round2 else 0 })

/-- Row of the unified table right after the outer merge: business fields
on the left, daily marketing fields on the right; a date present on only
one side leaves the other side's fields as NaN, exactly as pd.merge
produces them. -/
structure MergedRow where
  date : ℤ
  total_revenue : FVal
  gross_profit : FVal
  COGS : FVal
  num_of_orders : FVal
  profit_margin : FVal
  avg_order_value : FVal
  spend : FVal
  attributed_revenue : FVal
  clicks : FVal
  impression : FVal
  daily_roas : FVal
  daily_ctr : FVal
deriving DecidableEq, Repr

/-- Merge one business row against the daily marketing table: matched
dates take the daily values, unmatched dates leave them NaN.  The daily
table has at most one row per date (it comes from a groupby), so the
first match is the only match. -/
def leftJoinRow (daily : List DailyRow) (b : BizRow) : MergedRow :=
  match daily.find? (fun m => m.date == b.date) with
  | some m =>
    { date := b.date
      total_revenue := b.total_revenue
      gross_profit := b.gross_profit
      COGS := b.COGS
      num_of_orders := b.num_of_orders
      profit_margin := b.profit_margin
      avg_order_value := b.avg_order_value
      spend := m.spend
      attributed_revenue := m.attributed_revenue
      clicks := m.clicks
      impression := m.impression
      daily_roas := m.daily_roas
      daily_ctr := m.daily_ctr }
  | none =>
    { date := b.date
      total_revenue := b.total_revenue
      gross_profit := b.gross_profit
      COGS := b.COGS
      num_of_orders := b.num_of_orders
      profit_margin := b.profit_margin
      avg_order_value := b.avg_order_value
      spend := .nan
      attributed_revenue := .nan
      clicks := .nan
      impression := .nan
      daily_roas := .nan
      daily_ctr := .nan }

/-- Rows of the outer merge for dates present only in the daily marketing
table: business fields are NaN. -/
def rightOnlyRows (biz : List BizRow) (daily : List DailyRow) : List MergedRow :=
  (daily.filter (fun m => !(biz.any (fun b => b.date == m.date)))).map (fun m =>
    { date := m.date
      total_revenue := .nan
      gross_profit := .nan
      COGS := .nan
      num_of_orders := .nan
      profit_margin := .nan
      avg_order_value := .nan
      spend := m.spend
      attributed_revenue := m.attributed_revenue
      clicks := m.clicks
      impression := m.impression
      daily_roas := m.daily_roas
      daily_ctr := m.daily_ctr })

/-- pd.merge(business_df, daily_marketing, on=date, how=outer) with the
default sort=False: left rows in order, then the right-only rows. -/
def mergeOuter (biz : List BizRow) (daily : List DailyRow) : List MergedRow :=
  biz.map (leftJoinRow daily) ++ rightOnlyRows biz daily

/-- fillna(0) over the merged table: every NaN field becomes 0. -/
def fillnaMerged (r : MergedRow) : MergedRow :=
  { date := r.date
    total_revenue := r.total_revenue.fill0
    gross_profit := r.gross_profit.fill0
    COGS := r.COGS.fill0
    num_of_orders := r.num_of_orders.fill0
    profit_margin := r.profit_margin.fill0
    avg_order_value := r.avg_order_value.fill0
    spend := r.spend.fill0
    attributed_revenue := r.attributed_revenue.fill0
    clicks := r.clicks.fill0
    impression := r.impression.fill0
    daily_roas := r.daily_roas.fill0
    daily_ctr := r.daily_ctr.fill0 }

/-- Row of the final unified table: the merged row plus the guarded
marketing_efficiency column. -/
structure URow extends MergedRow where
  marketing_efficiency : FVal
deriving DecidableEq, Repr

/-- Guarded marketing_efficiency column (source lines 150-154). -/
def addEfficiency (r : MergedRow) : URow :=
  { r with
    marketing_efficiency :=
      if r.spend.gtZero then (r.total_revenue / r.spend).round2 else 0 }

/-- create_unified_dataset (src/utils/data_prep.py lines 118-156):
aggregate the combined ad table by date, outer-merge with the business
table on date, fill missing values with 0, and compute the guarded
marketing_efficiency column. -/
def create_unified_dataset (biz : List BizRow) (mk : List MkRow) : List URow :=
  ((mergeOuter biz (groupbyDate mk)).map fillnaMerged).map addEfficiency

/-! ## Sorting (combine_marketing_data)

pandas sort_values on a single column with the default algorithm applies
the permutation computed by the numpy argsort quicksort, which is an
introsort: median-of-three quicksort with a depth budget of
2 * floor(log2 n), insertion sort for segments of at most 16 elements
(SMALL_QUICKSORT = 15 compares pointer differences), and heapsort for a
popped segment whose depth budget is exhausted.  The definitions below
transliterate the reference implementation in numpy npysort
(quicksort.c, heapsort.c); comparing and swapping the tagged items
directly is equivalent to the indirect argsort-then-take the library
performs, since comparisons only read the key.  This sort is NOT stable.
-/

/-- Array read with an explicit default (used only where the algorithm
guarantees the index is in bounds). -/
def agetD (a : Array α) (i : Nat) (d : α) : α :=
  if h : i < a.size then a.get ⟨i, h⟩ else d

/-- Array write, leaving the array unchanged out of bounds (the algorithm
only writes in bounds). -/
def asetD (a : Array α) (i : Nat) (v : α) : Array α :=
  if h : i < a.size then a.set ⟨i, h⟩ v else a

/-- Swap of two array cells. -/
def aswap (a : Array α) (i j : Nat) : Array α :=
  if h : i < a.size ∧ j < a.size then
    (a.set ⟨i, h.1⟩ (a.get ⟨j, h.2⟩)).set ⟨j, by simpa using h.2⟩ (a.get ⟨i, h.1⟩)
  else a

/-- Upward scan of the partition loop (do increment pi while
key < pivot): first index at or above i whose key is not below the pivot.
The parked pivot stops the scan, so the out-of-bounds clamp is never the
stopping reason in an actual run. -/
def scanUp (key : α → ℤ) (vp : ℤ) (a : Array α) (i : Nat) : Nat :=
  if h : i < a.size then
    if key (a.get ⟨i, h⟩) < vp then scanUp key vp a (i + 1) else i
  else i
termination_by a.size - i

/-- Downward scan of the partition loop (do decrement pj while
pivot < key): first index at or below j whose key is not above the pivot.
The median-of-three element at index 0 stops the scan before underflow. -/
def scanDown (key : α → ℤ) (vp : ℤ) (a : Array α) : Nat → Nat
  | 0 => 0
  | j + 1 =>
    if h : j + 1 < a.size then
      if vp < key (a.get ⟨j + 1, h⟩) then scanDown key vp a j else j + 1
    else j + 1

/-- Swap loop of the Hoare partition: scan up, scan down, stop when the
pointers meet or cross, otherwise swap and continue.  The fuel is an upper
bound on iterations (the pointers close in by at least two per round). -/
def partLoop (key : α → ℤ) (vp : ℤ) (a : Array α) (pi pj : Nat) : Nat → Array α × Nat
  | 0 => (a, pi)
  | fuel + 1 =>
    let piN := scanUp key vp a (pi + 1)
    let pjN := scanDown key vp a (pj - 1)
    if pjN ≤ piN then (a, piN)
    else partLoop key vp (aswap a piN pjN) piN pjN fuel

/-- Median-of-three selection: the three conditional swaps ordering the
first, middle and last cell of the segment. -/
def median3 (key : α → ℤ) (a0 : Array α) (pm pr : Nat) (d : α) : Array α :=
  let a1 := if key (agetD a0 pm d) < key (agetD a0 0 d) then aswap a0 pm 0 else a0
  let a2 := if key (agetD a1 pr d) < key (agetD a1 pm d) then aswap a1 pr pm else a1
  if key (agetD a2 pm d) < key (agetD a2 0 d) then aswap a2 pm 0 else a2

/-- Swaps preserve the array size. -/
theorem aswap_size (a : Array α) (i j : Nat) : (aswap a i j).size = a.size := by
  unfold aswap
  split <;> simp

/-- The median-of-three step preserves the array size. -/
theorem median3_size (key : α → ℤ) (a0 : Array α) (pm pr : Nat) (d : α) :
    (median3 key a0 pm pr d).size = a0.size := by
  unfold median3
  dsimp only
  simp only [apply_ite Array.size, aswap_size, ite_self]

/-- The partition swap loop preserves the array size. -/
theorem partLoop_size (key : α → ℤ) (vp : ℤ) (fuel : Nat) :
    ∀ (a : Array α) (pi pj : Nat), (partLoop key vp a pi pj fuel).1.size = a.size := by
  induction fuel with
  | zero => intro a pi pj; rfl
  | succ n ih =>
    intro a pi pj
    unfold partLoop
    dsimp only
    split
    · rfl
    · rw [ih, aswap_size]

/-- One partition step of the numpy quicksort on a whole segment given as
a list: median-of-three selection, the pivot parked at the penultimate
cell, the swap loop, and the final swap placing the pivot.  Returns the
left segment, the pivot item and the right segment.  The final index is
clamped to size - 2; the clamp is the identity whenever the parked-pivot
sentinel holds, which the preceding steps establish, and it makes the
segment shrinkage structural. -/
def npPartition (key : α → ℤ) (l : List α) (d : α) : List α × α × List α :=
  let n := l.length
  let pm := (n - 1) / 2
  let a3 := median3 key l.toArray pm (n - 1) d
  let vp := key (agetD a3 pm d)
  let a4 := aswap a3 pm (n - 2)
  let r := partLoop key vp a4 0 (n - 2) n
  let pif := min r.2 (n - 2)
  let a5 := aswap r.1 pif (n - 2)
  (a5.toList.take pif, agetD a5 pif d, a5.toList.drop (pif + 1))

/-- Stable insertion of an item into an ascending list, after any equal
keys: the numpy insertion sort shifts elements only while their key
strictly exceeds the inserted one. -/
def npInsert (key : α → ℤ) (x : α) : List α → List α
  | [] => [x]
  | y :: ys => if key x < key y then x :: y :: ys else y :: npInsert key x ys

/-- Insertion sort, processing the segment left to right: the base case
of the numpy quicksort for segments of at most 16 elements. -/
def npInsSort (key : α → ℤ) (l : List α) : List α :=
  l.foldl (fun acc x => npInsert key x acc) []

/-- Sift loop shared by the build and extract phases of the numpy
heapsort, with 1-based heap indices into a 0-based array: the hole at
position i walks down toward the larger child while that child exceeds
tmp, then tmp is written into the final hole. -/
def npSift (key : α → ℤ) (d : α) (tmp : α) (a : Array α) (i j n : Nat) : Array α :=
  if hj : j ≤ n ∧ 1 ≤ j then
    let j2 := if j < n ∧ key (agetD a (j - 1) d) < key (agetD a j d) then j + 1 else j
    if key tmp < key (agetD a (j2 - 1) d) then
      npSift key d tmp (asetD a (i - 1) (agetD a (j2 - 1) d)) j2 (2 * j2) n
    else asetD a (i - 1) tmp
  else asetD a (i - 1) tmp
termination_by n + 1 - j
decreasing_by
  simp_wf
  split <;> omega

/-- Heapify phase: sift each position from n/2 down to 1. -/
def npHeapBuild (key : α → ℤ) (d : α) (a : Array α) (n : Nat) : Nat → Array α
  | 0 => a
  | l + 1 => npHeapBuild key d (npSift key d (agetD a l d) a (l + 1) (2 * (l + 1)) n) n l

/-- Extraction phase: repeatedly move the maximum at position 1 to the
end of the shrinking heap and sift the displaced last element down. -/
def npHeapExtract (key : α → ℤ) (d : α) (a : Array α) : Nat → Array α
  | 0 => a
  | 1 => a
  | n + 2 =>
    let tmp := agetD a (n + 1) d
    let a1 := asetD a (n + 1) (agetD a 0 d)
    npHeapExtract key d (npSift key d tmp a1 1 2 (n + 1)) (n + 1)

/-- The numpy heapsort of a whole segment (aheapsort): fallback of the
introsort when the depth budget is exhausted. -/
def npHeapsort (key : α → ℤ) (l : List α) : List α :=
  match l with
  | [] => []
  | x :: xs =>
    let a := (x :: xs).toArray
    (npHeapExtract key x (npHeapBuild key x a a.size (a.size / 2)) a.size).toList

/-- Shrinkage of the partition: both returned segments are strictly
shorter than the input segment (of length at least 2). -/
theorem npPartition_sizes (key : α → ℤ) (l : List α) (d : α) (h : 2 ≤ l.length) :
    (npPartition key l d).1.length < l.length ∧
      (npPartition key l d).2.2.length < l.length := by
  unfold npPartition
  dsimp only
  constructor <;>
    · simp only [List.length_take, List.length_drop, Array.length_toList, aswap_size,
        partLoop_size, median3_size, Array.size_toArray]
      omega

mutual
/-- Segment handler at the top of the outer loop of the numpy quicksort:
a segment whose depth budget is exhausted is heapsorted, otherwise the
partitioning loop runs. -/
def npProcessRange (key : α → ℤ) (cdepth : ℤ) (l : List α) : List α :=
  if cdepth < 0 then npHeapsort key l
  else npWhileLoop key cdepth l
termination_by (l.length, 1)

/-- Partitioning loop of the numpy quicksort: segments of at most 16
elements are insertion sorted; longer segments are partitioned, the
smaller side is processed immediately and the larger side is pushed (a
pushed side re-checks the decremented depth budget when popped). -/
def npWhileLoop (key : α → ℤ) (cdepth : ℤ) (l : List α) : List α :=
  if h16 : l.length ≤ 16 then npInsSort key l
  else
    match hl : l with
    | [] => []
    | x :: xs =>
      let t := npPartition key (x :: xs) x
      have hsz := npPartition_sizes key (x :: xs) x (by simp at h16 ⊢; omega)
      if t.1.length < t.2.2.length then
        npWhileLoop key (cdepth - 1) t.1 ++ t.2.1 :: npProcessRange key (cdepth - 1) t.2.2
      else
        npProcessRange key (cdepth - 1) t.1 ++ t.2.1 :: npWhileLoop key (cdepth - 1) t.2.2
termination_by (l.length, 0)
decreasing_by
  all_goals
    simp_wf
    apply Prod.Lex.left
    simp only [List.length_cons] at hsz ⊢
    omega
end

/-- The full numpy introsort entry point: depth budget 2 * floor(log2 n).
This is the permutation pandas sort_values applies with its default
sorting algorithm. -/
def npQuicksortBy (key : α → ℤ) (l : List α) : List α :=
  npProcessRange key (2 * Nat.log2 l.length) l

/-- sort_values(date) on the combined ad table. -/
def sortValuesByDate (l : List MkRow) : List MkRow :=
  npQuicksortBy (fun r => r.date) l

/-- combine_marketing_data (src/utils/data_prep.py lines 101-116): clean
each platform table with its platform tag, concatenate them in order
(ignore_index renumbers but drops no row), and sort by date. -/
def combine_marketing_data (fb g tt : MkDF) : Except PdError (List MkRow) :=
  match clean_marketing_data fb "Facebook" with
  | .error e => .error e
  | .ok f =>
    match clean_marketing_data g "Google" with
    | .error e => .error e
    | .ok gg =>
      match clean_marketing_data tt "TikTok" with
      | .error e => .error e
      | .ok t => .ok (sortValuesByDate (f ++ gg ++ t))

/-- The full pipeline as the dashboard composes it: clean and combine the
three platform tables, clean the business table, and build the unified
daily dataset. -/
def runPipeline (biz : BizDF) (fb g tt : MkDF) : Except PdError (List URow) :=
  match combine_marketing_data fb g tt with
  | .error e => .error e
  | .ok combined =>
    match clean_business_data biz with
    | .error e => .error e
    | .ok b => .ok (create_unified_dataset b combined)

/-! ## Concrete tables used by the concrete theorems -/

/-- Business table of the concrete scenario in the spec: one record for
2024-01-01 with total_revenue 1000, gross_profit 400, 10 orders. -/
def c5bizDF : BizDF :=
  ⟨[{ date := .valid 20240101, total_revenue := .val (.num 1000),
      gross_profit := .val (.num 400), COGS := .val (.num 600),
      num_of_orders := .num 10, rowid := 0 }]⟩

/-- Facebook table of the concrete scenario: one ad record for 2024-01-01
with 2000 impressions, 40 clicks, spend 100, attributed revenue 150. -/
def c5fbDF : MkDF :=
  { rows := [{ date := .valid 20240101, impression := .val (.num 2000),
               clicks := .val (.num 40), spend := .val (.num 100),
               attributed_revenue := .val (.num 150), rowid := 0 }]
    hasImpression := true, hasClicks := true, hasSpend := true, hasAttrRev := true }

/-- An empty but well-formed platform table (all expected columns
present, no rows). -/
def emptyMkDF : MkDF :=
  { rows := [], hasImpression := true, hasClicks := true, hasSpend := true,
    hasAttrRev := true }

/-- Business table with a record whose total_revenue is 0 while
gross_profit is 400: the denominator of profit_margin is 0. -/
def c1bizDF : BizDF :=
  ⟨[{ date := .valid 1, total_revenue := .val (.num 0),
      gross_profit := .val (.num 400), COGS := .val (.num 0),
      num_of_orders := .num 10, rowid := 0 }]⟩

/-- Raw business record with total_revenue 0 (witness input). -/
def c1wRawBiz : BizRawRow :=
  { date := .valid 1, total_revenue := .val (.num 0), gross_profit := .val (.num 400),
    COGS := .val (.num 0), num_of_orders := .num 10, rowid := 0 }

/-- Raw business record with num_of_orders 0 (witness input). -/
def c1wRawBiz2 : BizRawRow :=
  { date := .valid 1, total_revenue := .val (.num 50), gross_profit := .val (.num 20),
    COGS := .val (.num 30), num_of_orders := .num 0, rowid := 0 }

/-- Raw ad record whose metric cells are all 0 (witness input). -/
def c1wRawMk : MkRawRow :=
  { date := .valid 1, impression := .val (.num 0), clicks := .val (.num 0),
    spend := .val (.num 0), attributed_revenue := .val (.num 0), rowid := 0 }

/-- The cleaned-but-unfiltered ad row derived from `c1wRawMk`. -/
def c1wMk : MkRow := deriveMkRow "Facebook" (1, c1wRawMk)

/-- The daily aggregate of the single all-zero ad row. -/
def c1wDaily : DailyRow :=
  { date := 1, spend := .num 0, attributed_revenue := .num 0, clicks := .num 0,
    impression := .num 0, daily_roas := .num 0, daily_ctr := .num 0 }

/-- The unified row produced from no business rows and the single
all-zero ad row. -/
def c1wU : URow :=
  { date := 1, total_revenue := .num 0, gross_profit := .num 0, COGS := .num 0,
    num_of_orders := .num 0, profit_margin := .num 0, avg_order_value := .num 0,
    spend := .num 0, attributed_revenue := .num 0, clicks := .num 0,
    impression := .num 0, daily_roas := .num 0, daily_ctr := .num 0,
    marketing_efficiency := .num 0 }

/-- Ad table with two records: rowid 0 with impression 5 and rowid 1
with impression 0. -/
def c2wDF : MkDF :=
  { rows := [{ date := .valid 1, impression := .val (.num 5), clicks := .val (.num 1),
               spend := .val (.num 1), attributed_revenue := .val (.num 1), rowid := 0 },
             { date := .valid 1, impression := .val (.num 0), clicks := .val (.num 7),
               spend := .val (.num 7), attributed_revenue := .val (.num 7), rowid := 1 }]
    hasImpression := true, hasClicks := true, hasSpend := true, hasAttrRev := true }

/-- The cleaned table of `c2wDF`: only the rowid 0 record survives. -/
def c2wRows : List MkRow :=
  [{ date := 1, platform := "Facebook", impression := .num 5, clicks := .num 1,
     spend := .num 1, attributed_revenue := .num 1, ctr := .num 20, cpc := .num 1,
     roas := .num 1, cpm := .num 200, rowid := 0 }]

/-- Business table with two records for date 1 and one for date 2. -/
def c3wDF : BizDF :=
  ⟨[{ date := .valid 1, total_revenue := .val (.num 10), gross_profit := .val (.num 5),
      COGS := .val (.num 5), num_of_orders := .num 2, rowid := 0 },
    { date := .valid 1, total_revenue := .val (.num 30), gross_profit := .val (.num 3),
      COGS := .val (.num 27), num_of_orders := .num 3, rowid := 1 },
    { date := .valid 2, total_revenue := .val (.num 20), gross_profit := .val (.num 10),
      COGS := .val (.num 10), num_of_orders := .num 4, rowid := 2 }]⟩

/-- The derived (pre-dedup) table of `c3wDF`. -/
def c3wPre : List BizRow :=
  [{ date := 1, total_revenue := .num 10, gross_profit := .num 5, COGS := .num 5,
     num_of_orders := .num 2, profit_margin := .num 50, avg_order_value := .num 5,
     rowid := 0 },
   { date := 1, total_revenue := .num 30, gross_profit := .num 3, COGS := .num 27,
     num_of_orders := .num 3, profit_margin := .num 10, avg_order_value := .num 10,
     rowid := 1 },
   { date := 2, total_revenue := .num 20, gross_profit := .num 10, COGS := .num 10,
     num_of_orders := .num 4, profit_margin := .num 50, avg_order_value := .num 5,
     rowid := 2 }]

/-- The cleaned table of `c3wDF`: the rowid 1 duplicate is dropped. -/
def c3wRows : List BizRow :=
  [{ date := 1, total_revenue := .num 10, gross_profit := .num 5, COGS := .num 5,
     num_of_orders := .num 2, profit_margin := .num 50, avg_order_value := .num 5,
     rowid := 0 },
   { date := 2, total_revenue := .num 20, gross_profit := .num 10, COGS := .num 10,
     num_of_orders := .num 4, profit_margin := .num 50, avg_order_value := .num 5,
     rowid := 2 }]

/-- Cleaned business table with a single record for date 1. -/
def c4wBiz : List BizRow :=
  [{ date := 1, total_revenue := .num 7, gross_profit := .num 3, COGS := .num 4,
     num_of_orders := .num 1, profit_margin := .num 300, avg_order_value := .num 7,
     rowid := 0 }]

/-- Combined ad table with a single record for date 2. -/
def c4wMk : List MkRow :=
  [{ date := 2, platform := "Facebook", impression := .num 10, clicks := .num 1,
     spend := .num 4, attributed_revenue := .num 8, ctr := .num 10, cpc := .num 4,
     roas := .num 2, cpm := .num 400, rowid := 0 }]

/-- Unified row for date 1 (business only, marketing fields filled 0). -/
def c4wU1 : URow :=
  { date := 1, total_revenue := .num 7, gross_profit := .num 3, COGS := .num 4,
    num_of_orders := .num 1, profit_margin := .num 300, avg_order_value := .num 7,
    spend := .num 0, attributed_revenue := .num 0, clicks := .num 0,
    impression := .num 0, daily_roas := .num 0, daily_ctr := .num 0,
    marketing_efficiency := .num 0 }

/-- Unified row for date 2 (marketing only, business fields filled 0). -/
def c4wU2 : URow :=
  { date := 2, total_revenue := .num 0, gross_profit := .num 0, COGS := .num 0,
    num_of_orders := .num 0, profit_margin := .num 0, avg_order_value := .num 0,
    spend := .num 4, attributed_revenue := .num 8, clicks := .num 1,
    impression := .num 10, daily_roas := .num 2, daily_ctr := .num 10,
    marketing_efficiency := .num 0 }

/-- Business table whose second record has an unparseable date. -/
def c7bizDF : BizDF :=
  ⟨[{ date := .valid 1, total_revenue := .val (.num 10), gross_profit := .val (.num 5),
      COGS := .val (.num 5), num_of_orders := .num 1, rowid := 0 },
    { date := .invalid "2024-13-45", total_revenue := .val (.num 20),
      gross_profit := .val (.num 8), COGS := .val (.num 12), num_of_orders := .num 2,
      rowid := 1 },
    { date := .valid 2, total_revenue := .val (.num 30), gross_profit := .val (.num 9),
      COGS := .val (.num 21), num_of_orders := .num 3, rowid := 2 }]⟩

/-- Ad table whose second record has an unparseable date. -/
def c7mkDF : MkDF :=
  { rows := [{ date := .valid 1, impression := .val (.num 10), clicks := .val (.num 1),
               spend := .val (.num 1), attributed_revenue := .val (.num 1), rowid := 0 },
             { date := .invalid "13/45/2024", impression := .val (.num 10),
               clicks := .val (.num 1), spend := .val (.num 1),
               attributed_revenue := .val (.num 1), rowid := 1 }]
    hasImpression := true, hasClicks := true, hasSpend := true, hasAttrRev := true }

/-- Ad table with valid rows but no impression column. -/
def c8mkDF : MkDF :=
  { rows := [{ date := .valid 1, impression := .val (.num 10), clicks := .val (.num 2),
               spend := .val (.num 3), attributed_revenue := .val (.num 4), rowid := 0 }]
    hasImpression := false, hasClicks := true, hasSpend := true, hasAttrRev := true }

/-- Facebook table with 17 ad records sharing one date, identified by
rowids 0..16, all surviving cleaning. -/
def c6fbDF : MkDF :=
  { rows := (List.range 17).map (fun i =>
      { date := .valid 1, impression := .val (.num 1), clicks := .val (.num 1),
        spend := .val (.num 1), attributed_revenue := .val (.num 1), rowid := i })
    hasImpression := true, hasClicks := true, hasSpend := true, hasAttrRev := true }

/-! ## Helper lemmas -/

theorem FVal.hdiv_def (a b : FVal) : a / b = FVal.div a b := rfl

theorem FVal.hmul_def (a b : FVal) : a * b = FVal.mul a b := rfl

theorem FVal.hadd_def (a b : FVal) : a + b = FVal.add a b := rfl

theorem FVal.gtZero_num_zero : (FVal.num 0).gtZero = false := by
  simp [FVal.gtZero]

/-- An element on which f fails makes the whole fallible map fail. -/
theorem exceptMapList_error {f : α → Except PdError β} {l : List α} {a : α}
    (ha : a ∈ l) {e : PdError} (he : f a = .error e) :
    ∃ e2, exceptMapList f l = .error e2 := by
  induction l with
  | nil => cases ha
  | cons b rest ih =>
    rcases List.mem_cons.mp ha with rfl | hmem
    · exact ⟨e, by simp [exceptMapList, he]⟩
    · cases hfb : f b with
      | error e3 => exact ⟨e3, by simp [exceptMapList, hfb]⟩
      | ok v =>
        obtain ⟨e2, h2⟩ := ih hmem
        exact ⟨e2, by simp [exceptMapList, hfb, h2]⟩

/-- Parsing the ad date column keeps the rows, in order. -/
theorem parseMkDates_ok_snd :
    ∀ {rows : List MkRawRow} {dated : List (ℤ × MkRawRow)},
      parseMkDates rows = .ok dated → dated.map Prod.snd = rows := by
  intro rows
  induction rows with
  | nil =>
    intro dated h
    simp [parseMkDates, exceptMapList] at h
    simp [← h]
  | cons r rest ih =>
    intro dated h
    simp only [parseMkDates, exceptMapList] at h
    cases hr : parseMkRow r with
    | error e => rw [hr] at h; cases h
    | ok p =>
      rw [hr] at h
      cases hrest : exceptMapList parseMkRow rest with
      | error e => rw [hrest] at h; cases h
      | ok bs =>
        rw [hrest] at h
        cases h
        have hp : p.2 = r := by
          unfold parseMkRow at hr
          cases hd : r.date with
          | valid z => rw [hd] at hr; cases hr; rfl
          | invalid s => rw [hd] at hr; cases hr
        simp [hp, ih hrest]

/-- Parsing the business date column keeps the rows, in order. -/
theorem parseBizDates_ok_snd :
    ∀ {rows : List BizRawRow} {dated : List (ℤ × BizRawRow)},
      parseBizDates rows = .ok dated → dated.map Prod.snd = rows := by
  intro rows
  induction rows with
  | nil =>
    intro dated h
    simp [parseBizDates, exceptMapList] at h
    simp [← h]
  | cons r rest ih =>
    intro dated h
    simp only [parseBizDates, exceptMapList] at h
    cases hr : parseBizRow r with
    | error e => rw [hr] at h; cases h
    | ok p =>
      rw [hr] at h
      cases hrest : exceptMapList parseBizRow rest with
      | error e => rw [hrest] at h; cases h
      | ok bs =>
        rw [hrest] at h
        cases h
        have hp : p.2 = r := by
          unfold parseBizRow at hr
          cases hd : r.date with
          | valid z => rw [hd] at hr; cases hr; rfl
          | invalid s => rw [hd] at hr; cases hr
        simp [hp, ih hrest]

/-- A raw business record with a validly parsed date appears, with its
date, in the parsed column. -/
theorem parseBizDates_mem_valid :
    ∀ {rows : List BizRawRow} {dated : List (ℤ × BizRawRow)},
      parseBizDates rows = .ok dated →
      ∀ raw ∈ rows, ∀ z : ℤ, raw.date = .valid z → (z, raw) ∈ dated := by
  intro rows
  induction rows with
  | nil => intro dated _ raw hraw; cases hraw
  | cons r rest ih =>
    intro dated h raw hraw z hz
    simp only [parseBizDates, exceptMapList] at h
    cases hr : parseBizRow r with
    | error e => rw [hr] at h; cases h
    | ok p =>
      rw [hr] at h
      cases hrest : exceptMapList parseBizRow rest with
      | error e => rw [hrest] at h; cases h
      | ok bs =>
        rw [hrest] at h
        cases h
        rcases List.mem_cons.mp hraw with rfl | hmem
        · unfold parseBizRow at hr
          rw [hz] at hr
          cases hr
          exact List.mem_cons_self _ _
        · exact List.mem_cons_of_mem _ (ih hrest raw hmem z hz)

/-! ## Claims -/

/-- C5: for the concrete business record (2024-01-01, total_revenue 1000,
gross_profit 400, 10 orders) and Facebook ad record (2024-01-01,
impression 2000, clicks 40, spend 100, attributed revenue 150), the
pipeline derives ctr = 2.0, cpc = 2.5 (= 5/2), roas = 1.5 (= 3/2),
cpm = 50.0 for the ad record, and the unified record for that date has
marketing_efficiency = 10.0. -/
theorem c5_concrete_scenario :
    (clean_marketing_data c5fbDF "Facebook").map
        (List.map (fun r => (r.ctr, r.cpc, r.roas, r.cpm))) =
      .ok [(FVal.num 2, FVal.num (5/2), FVal.num (3/2), FVal.num 50)] ∧
    (runPipeline c5bizDF c5fbDF emptyMkDF emptyMkDF).map
        (List.map (fun u => (u.date, u.marketing_efficiency))) =
      .ok [((20240101 : ℤ), FVal.num 10)] := by
  constructor
  · with_unfolding_all rfl
  · with_unfolding_all rfl

/-- C9: the pipeline (clean, derive, combine, unify) is deterministic:
identical input tables yield identical unified tables.  The embedding is
a pure function of its inputs because the source touches no external
mutable state in these functions, and every intermediate order (groupby
keys, merge output, sorting) is a deterministic function of the input. -/
theorem c9_pipeline_deterministic :
    ∀ (b1 b2 : BizDF) (f1 f2 g1 g2 t1 t2 : MkDF),
      b1 = b2 → f1 = f2 → g1 = g2 → t1 = t2 →
      runPipeline b1 f1 g1 t1 = runPipeline b2 f2 g2 t2 := by
  intro b1 b2 f1 f2 g1 g2 t1 t2 hb hf hg ht
  rw [hb, hf, hg, ht]

/-- Witness for C9 at the concrete scenario tables. -/
theorem c9_pipeline_deterministic_witness :
    runPipeline c5bizDF c5fbDF emptyMkDF emptyMkDF =
      runPipeline c5bizDF c5fbDF emptyMkDF emptyMkDF :=
  c9_pipeline_deterministic c5bizDF c5bizDF c5fbDF c5fbDF emptyMkDF emptyMkDF
    emptyMkDF emptyMkDF rfl rfl rfl rfl

/-- Counterexample to C8: a table missing the impression column makes
clean_marketing_data raise a KeyError instead of skipping or defaulting
the derived metrics to 0. -/
theorem c8_counterexample :
    clean_marketing_data c8mkDF "Facebook" = .error (.keyError "impression") := by
  with_unfolding_all rfl

/-- C8 (corrected): the numeric-coercion step does skip an absent metric
column without error, but the derived-metric block subscripts the
dataframe with each metric column name unconditionally, so cleaning a
table missing one of impression, clicks, spend, attributed revenue
raises a KeyError naming the first absent column (in first-use order);
it is a fatal error, not a skip or default to 0. -/
theorem c8_missing_column_raises :
    ∀ (df : MkDF) (p c : String) (dated : List (ℤ × MkRawRow)),
      parseMkDates df.rows = .ok dated →
      firstMissingMetricCol df = some c →
      clean_marketing_data df p = .error (.keyError c) := by
  intro df p c dated hok hc
  unfold clean_marketing_data
  rw [hok, hc]

/-- Witness for C8 at the concrete impression-less table. -/
theorem c8_missing_column_raises_witness :
    clean_marketing_data c8mkDF "Facebook" = .error (.keyError "impression") :=
  c8_missing_column_raises c8mkDF "Facebook" "impression"
    [((1 : ℤ), { date := .valid 1, impression := .val (.num 10), clicks := .val (.num 2),
                 spend := .val (.num 3), attributed_revenue := .val (.num 4), rowid := 0 })]
    (by with_unfolding_all rfl) (by with_unfolding_all rfl)

/-- Counterexample to C7: one record with an unparseable date makes the
cleaning operation fail with an error (for both table kinds); the record
is not excluded and processing does not continue. -/
theorem c7_counterexample :
    clean_business_data c7bizDF = .error (.parseDateError "2024-13-45") ∧
    clean_marketing_data c7mkDF "Facebook" = .error (.parseDateError "13/45/2024") := by
  constructor
  · with_unfolding_all rfl
  · with_unfolding_all rfl

/-- C7 (corrected): pd.to_datetime is called with its default raise
policy, so a record whose date is unparseable aborts the whole cleaning
call with an error: no cleaned table is produced, and the offending
record is not excluded with processing continuing. -/
theorem c7_invalid_date_aborts :
    (∀ (df : BizDF) (r : BizRawRow) (s : String), r ∈ df.rows → r.date = .invalid s →
      ∃ e, clean_business_data df = .error e) ∧
    (∀ (df : MkDF) (p : String) (r : MkRawRow) (s : String), r ∈ df.rows →
      r.date = .invalid s → ∃ e, clean_marketing_data df p = .error e) := by
  constructor
  · intro df r s hr hs
    have herr : parseBizRow r = .error (.parseDateError s) := by
      unfold parseBizRow; rw [hs]
    obtain ⟨e2, h2⟩ := exceptMapList_error hr herr
    refine ⟨e2, ?_⟩
    unfold clean_business_data bizDerivedRows parseBizDates
    rw [h2]
  · intro df p r s hr hs
    have herr : parseMkRow r = .error (.parseDateError s) := by
      unfold parseMkRow; rw [hs]
    obtain ⟨e2, h2⟩ := exceptMapList_error hr herr
    refine ⟨e2, ?_⟩
    unfold clean_marketing_data parseMkDates
    rw [h2]

/-- Witness for C7 at the concrete tables with one bad date each. -/
theorem c7_invalid_date_aborts_witness :
    (∃ e, clean_business_data c7bizDF = .error e) ∧
    (∃ e, clean_marketing_data c7mkDF "Facebook" = .error e) :=
  ⟨c7_invalid_date_aborts.1 c7bizDF
      { date := .invalid "2024-13-45", total_revenue := .val (.num 20),
        gross_profit := .val (.num 8), COGS := .val (.num 12), num_of_orders := .num 2,
        rowid := 1 } "2024-13-45" (by simp [c7bizDF]) rfl,
    c7_invalid_date_aborts.2 c7mkDF "Facebook"
      { date := .invalid "13/45/2024", impression := .val (.num 10),
        clicks := .val (.num 1), spend := .val (.num 1),
        attributed_revenue := .val (.num 1), rowid := 1 } "13/45/2024"
      (by simp [c7mkDF]) rfl⟩

/-- Counterexample to C1: for a business record with total_revenue 0 and
gross_profit 400, the cleaned profit_margin is +infinity, not 0: the
business metrics are computed without a zero-guard. -/
theorem c1_counterexample :
    (clean_business_data c1bizDF).map (List.map (fun r => r.profit_margin)) =
      .ok [FVal.pinf] ∧ FVal.pinf ≠ FVal.num 0 := by
  constructor
  · with_unfolding_all rfl
  · intro h; cases h

/-- C1 (corrected): the seven np.where-guarded ratios (ctr, cpm, cpc,
roas in the ad metric derivation; daily_roas, daily_ctr in the daily
aggregation; marketing_efficiency in the unified table) evaluate to 0
when their denominator is 0.  The two business ratios profit_margin and
avg_order_value have no zero-guard: with a zero denominator they evaluate
to an infinity (or NaN when the numerator is also zero), never 0. -/
theorem c1_zero_guard_amended :
    (∀ (p : String) (pr : ℤ × MkRawRow),
      ((deriveMkRow p pr).impression = FVal.num 0 →
        (deriveMkRow p pr).ctr = FVal.num 0 ∧ (deriveMkRow p pr).cpm = FVal.num 0) ∧
      ((deriveMkRow p pr).clicks = FVal.num 0 → (deriveMkRow p pr).cpc = FVal.num 0) ∧
      ((deriveMkRow p pr).spend = FVal.num 0 → (deriveMkRow p pr).roas = FVal.num 0)) ∧
    (∀ (mk : List MkRow) (dr : DailyRow), dr ∈ groupbyDate mk →
      (dr.spend = FVal.num 0 → dr.daily_roas = FVal.num 0) ∧
      (dr.impression = FVal.num 0 → dr.daily_ctr = FVal.num 0)) ∧
    (∀ (biz : List BizRow) (mk : List MkRow) (u : URow),
      u ∈ create_unified_dataset biz mk →
      u.spend = FVal.num 0 → u.marketing_efficiency = FVal.num 0) ∧
    (∀ (pr : ℤ × BizRawRow),
      ((deriveBizRow pr).total_revenue = FVal.num 0 →
        (deriveBizRow pr).profit_margin = FVal.pinf ∨
          (deriveBizRow pr).profit_margin = FVal.ninf ∨
          (deriveBizRow pr).profit_margin = FVal.nan) ∧
      ((deriveBizRow pr).num_of_orders = FVal.num 0 →
        (deriveBizRow pr).avg_order_value = FVal.pinf ∨
          (deriveBizRow pr).avg_order_value = FVal.ninf ∨
          (deriveBizRow pr).avg_order_value = FVal.nan)) := by
  refine ⟨?_, ?_, ?_, ?_⟩
  · intro p pr
    simp only [deriveMkRow]
    refine ⟨fun h => ?_, fun h => ?_, fun h => ?_⟩
    · rw [h, FVal.gtZero_num_zero]
      exact ⟨rfl, rfl⟩
    · rw [h, FVal.gtZero_num_zero]
      rfl
    · rw [h, FVal.gtZero_num_zero]
      rfl
  · intro mk dr hdr
    simp only [groupbyDate, List.mem_map] at hdr
    obtain ⟨d, _, rfl⟩ := hdr
    constructor
    · intro h
      simp only at h ⊢
      rw [h, FVal.gtZero_num_zero]
      rfl
    · intro h
      simp only at h ⊢
      rw [h, FVal.gtZero_num_zero]
      rfl
  · intro biz mk u hu hsp
    simp only [create_unified_dataset, List.mem_map] at hu
    obtain ⟨m, ⟨m0, _, rfl⟩, rfl⟩ := hu
    simp only [addEfficiency] at hsp ⊢
    rw [hsp, FVal.gtZero_num_zero]
    rfl
  · intro pr
    constructor
    · intro h
      simp only [deriveBizRow] at h ⊢
      rw [h]
      rcases hg : (pr.2.gross_profit.toNum.fill0) with q | _ | _ | _
      · rcases lt_trichotomy q 0 with hq | hq | hq
        · simp [FVal.hdiv_def, FVal.hmul_def, FVal.div, FVal.mul, FVal.round2, hq,
            not_lt_of_gt hq, ne_of_lt hq]
        · subst hq
          simp [FVal.hdiv_def, FVal.hmul_def, FVal.div, FVal.mul, FVal.round2]
        · simp [FVal.hdiv_def, FVal.hmul_def, FVal.div, FVal.mul, FVal.round2, hq,
            not_lt_of_gt hq]
      · simp [FVal.hdiv_def, FVal.hmul_def, FVal.div, FVal.mul, FVal.round2]
      · simp [FVal.hdiv_def, FVal.hmul_def, FVal.div, FVal.mul, FVal.round2]
      · simp [FVal.hdiv_def, FVal.hmul_def, FVal.div, FVal.mul, FVal.round2]
    · intro h
      simp only [deriveBizRow] at h ⊢
      rw [h]
      rcases ht : (pr.2.total_revenue.toNum.fill0) with q | _ | _ | _
      · rcases lt_trichotomy q 0 with hq | hq | hq
        · simp [FVal.hdiv_def, FVal.div, FVal.round2, hq, not_lt_of_gt hq, ne_of_lt hq]
        · subst hq
          simp [FVal.hdiv_def, FVal.div, FVal.round2]
        · simp [FVal.hdiv_def, FVal.div, FVal.round2, hq, not_lt_of_gt hq]
      · simp [FVal.hdiv_def, FVal.div, FVal.round2]
      · simp [FVal.hdiv_def, FVal.div, FVal.round2]
      · simp [FVal.hdiv_def, FVal.div, FVal.round2]

/-- Witness for C1 instantiating every guarded conjunct at concrete
all-zero-denominator inputs, and the unguarded business conjuncts at the
concrete records with total_revenue 0 and num_of_orders 0. -/
theorem c1_zero_guard_witness :
    ((deriveMkRow "Facebook" (1, c1wRawMk)).ctr = FVal.num 0 ∧
      (deriveMkRow "Facebook" (1, c1wRawMk)).cpm = FVal.num 0) ∧
    (deriveMkRow "Facebook" (1, c1wRawMk)).cpc = FVal.num 0 ∧
    (deriveMkRow "Facebook" (1, c1wRawMk)).roas = FVal.num 0 ∧
    c1wDaily.daily_roas = FVal.num 0 ∧
    c1wDaily.daily_ctr = FVal.num 0 ∧
    c1wU.marketing_efficiency = FVal.num 0 ∧
    ((deriveBizRow (1, c1wRawBiz)).profit_margin = FVal.pinf ∨
      (deriveBizRow (1, c1wRawBiz)).profit_margin = FVal.ninf ∨
      (deriveBizRow (1, c1wRawBiz)).profit_margin = FVal.nan) ∧
    ((deriveBizRow (1, c1wRawBiz2)).avg_order_value = FVal.pinf ∨
      (deriveBizRow (1, c1wRawBiz2)).avg_order_value = FVal.ninf ∨
      (deriveBizRow (1, c1wRawBiz2)).avg_order_value = FVal.nan) := by
  have hdg : groupbyDate [c1wMk] = [c1wDaily] := by with_unfolding_all rfl
  have hdm : c1wDaily ∈ groupbyDate [c1wMk] := by
    rw [hdg]; exact List.mem_singleton.mpr rfl
  have hug : create_unified_dataset [] [c1wMk] = [c1wU] := by with_unfolding_all rfl
  have hum : c1wU ∈ create_unified_dataset [] [c1wMk] := by
    rw [hug]; exact List.mem_singleton.mpr rfl
  refine ⟨?_, ?_, ?_, ?_, ?_, ?_, ?_, ?_⟩
  · exact (c1_zero_guard_amended.1 "Facebook" (1, c1wRawMk)).1 (by with_unfolding_all rfl)
  · exact (c1_zero_guard_amended.1 "Facebook" (1, c1wRawMk)).2.1 (by with_unfolding_all rfl)
  · exact (c1_zero_guard_amended.1 "Facebook" (1, c1wRawMk)).2.2 (by with_unfolding_all rfl)
  · exact (c1_zero_guard_amended.2.1 [c1wMk] c1wDaily hdm).1 (by with_unfolding_all rfl)
  · exact (c1_zero_guard_amended.2.1 [c1wMk] c1wDaily hdm).2 (by with_unfolding_all rfl)
  · exact c1_zero_guard_amended.2.2.1 [] [c1wMk] c1wU hum (by with_unfolding_all rfl)
  · exact (c1_zero_guard_amended.2.2.2 (1, c1wRawBiz)).1 (by with_unfolding_all rfl)
  · exact (c1_zero_guard_amended.2.2.2 (1, c1wRawBiz2)).2 (by with_unfolding_all rfl)

/-- C2: every row of the table returned by clean_marketing_data has
impression strictly greater than 0, and an input record whose impression
cell is 0 contributes no row to the output (regardless of its other
fields), stated for tables whose records carry pairwise distinct row
identities. -/
theorem c2_impressions_positive :
    ∀ (df : MkDF) (p : String) (rows : List MkRow),
      clean_marketing_data df p = .ok rows →
      (∀ r ∈ rows, r.impression.gtZero = true) ∧
      ((df.rows.map MkRawRow.rowid).Nodup →
        ∀ raw ∈ df.rows, raw.impression = RawCell.val (FVal.num 0) →
          ∀ r ∈ rows, r.rowid ≠ raw.rowid) := by
  intro df p rows h
  unfold clean_marketing_data at h
  cases hp : parseMkDates df.rows with
  | error e => rw [hp] at h; cases h
  | ok dated =>
    rw [hp] at h
    cases hm : firstMissingMetricCol df with
    | some c => rw [hm] at h; cases h
    | none =>
      rw [hm] at h
      cases h
      constructor
      · intro r hr
        exact (List.mem_filter.mp hr).2
      · intro hnodup raw hraw h0 r hr hid
        obtain ⟨hmem, hpos⟩ := List.mem_filter.mp hr
        obtain ⟨pr, hpr, rfl⟩ := List.mem_map.mp hmem
        have hsnd : pr.2 ∈ df.rows := by
          rw [← parseMkDates_ok_snd hp]
          exact List.mem_map_of_mem Prod.snd hpr
        have hid2 : pr.2.rowid = raw.rowid := by
          simpa [deriveMkRow] using hid
        have heq : pr.2 = raw :=
          List.inj_on_of_nodup_map hnodup hsnd hraw hid2
        have himp : (deriveMkRow p pr).impression = FVal.num 0 := by
          simp [deriveMkRow, heq, h0, RawCell.toNum, FVal.fill0]
        rw [himp, FVal.gtZero_num_zero] at hpos
        cases hpos

/-- Witness for C2 on a two-record table where the record with rowid 1
has impression 0: it is absent from the cleaned table. -/
theorem c2_impressions_positive_witness :
    (∀ r ∈ c2wRows, r.impression.gtZero = true) ∧
    ((c2wDF.rows.map MkRawRow.rowid).Nodup →
      ∀ raw ∈ c2wDF.rows, raw.impression = RawCell.val (FVal.num 0) →
        ∀ r ∈ c2wRows, r.rowid ≠ raw.rowid) :=
  c2_impressions_positive c2wDF "Facebook" c2wRows (by with_unfolding_all rfl)

/-- A kept record's date was not among the already-seen dates, and the
kept record is the first input record bearing its date. -/
theorem dropDuplicates_not_seen_find :
    ∀ (l : List BizRow) (seen : List ℤ) (r : BizRow),
      r ∈ dropDuplicatesByDate seen l →
      r.date ∉ seen ∧ l.find? (fun x => x.date == r.date) = some r := by
  intro l
  induction l with
  | nil => intro seen r hr; cases hr
  | cons x rest ih =>
    intro seen r hr
    unfold dropDuplicatesByDate at hr
    by_cases hx : x.date ∈ seen
    · rw [if_pos hx] at hr
      obtain ⟨hns, hfind⟩ := ih seen r hr
      have hne : (x.date == r.date) = false := by
        simp only [beq_eq_false_iff_ne, ne_eq]
        intro he
        exact hns (he ▸ hx)
      constructor
      · exact hns
      · rw [List.find?_cons]
        rw [hne]
        exact hfind
    · rw [if_neg hx] at hr
      rcases List.mem_cons.mp hr with rfl | hmem
      · refine ⟨hx, ?_⟩
        rw [List.find?_cons]
        simp
      · obtain ⟨hns, hfind⟩ := ih (x.date :: seen) r hmem
        have hne2 : r.date ≠ x.date := fun he => hns (by rw [he]; exact List.mem_cons_self _ _)
        have hns2 : r.date ∉ seen := fun hc => hns (List.mem_cons_of_mem _ hc)
        have hne : (x.date == r.date) = false := by
          simp only [beq_eq_false_iff_ne, ne_eq]
          exact fun he => hne2 he.symm
        refine ⟨hns2, ?_⟩
        rw [List.find?_cons, hne]
        exact hfind

/-- Every input record's date is either already seen or represented by
some kept record. -/
theorem dropDuplicates_covers :
    ∀ (l : List BizRow) (seen : List ℤ) (x : BizRow), x ∈ l →
      x.date ∈ seen ∨ ∃ r ∈ dropDuplicatesByDate seen l, r.date = x.date := by
  intro l
  induction l with
  | nil => intro seen x hx; cases hx
  | cons y rest ih =>
    intro seen x hx
    unfold dropDuplicatesByDate
    by_cases hy : y.date ∈ seen
    · rw [if_pos hy]
      rcases List.mem_cons.mp hx with rfl | hmem
      · exact Or.inl hy
      · exact ih seen x hmem
    · rw [if_neg hy]
      rcases List.mem_cons.mp hx with rfl | hmem
      · exact Or.inr ⟨x, List.mem_cons_self _ _, rfl⟩
      · rcases ih (y.date :: seen) x hmem with hseen | ⟨r, hr, hrd⟩
        · rcases List.mem_cons.mp hseen with heq | hseen2
          · exact Or.inr ⟨y, List.mem_cons_self _ _, heq.symm⟩
          · exact Or.inl hseen2
        · exact Or.inr ⟨r, List.mem_cons_of_mem _ hr, hrd⟩

/-- The kept records carry pairwise distinct dates. -/
theorem dropDuplicates_nodup :
    ∀ (l : List BizRow) (seen : List ℤ),
      ((dropDuplicatesByDate seen l).map BizRow.date).Nodup := by
  intro l
  induction l with
  | nil => intro seen; simp [dropDuplicatesByDate]
  | cons x rest ih =>
    intro seen
    unfold dropDuplicatesByDate
    by_cases hx : x.date ∈ seen
    · rw [if_pos hx]; exact ih seen
    · rw [if_neg hx]
      simp only [List.map_cons, List.nodup_cons]
      constructor
      · intro hc
        obtain ⟨r, hr, hrd⟩ := List.mem_map.mp hc
        have := (dropDuplicates_not_seen_find rest (x.date :: seen) r hr).1
        exact this (hrd ▸ List.mem_cons_self _ _)
      · exact ih (x.date :: seen)

/-- In a table with pairwise distinct dates, filtering on a date that
occurs keeps exactly one record. -/
theorem filter_date_length_one :
    ∀ (l : List BizRow) (z : ℤ), (l.map BizRow.date).Nodup →
      z ∈ l.map BizRow.date → (l.filter (fun r => r.date == z)).length = 1 := by
  intro l
  induction l with
  | nil => intro z _ hz; cases hz
  | cons x rest ih =>
    intro z hnd hz
    simp only [List.map_cons, List.nodup_cons] at hnd
    rw [List.filter_cons]
    rcases List.mem_cons.mp hz with heq | hmem
    · subst heq
      have hnone : rest.filter (fun r => r.date == x.date) = [] := by
        apply List.filter_eq_nil_iff.mpr
        intro a ha hc
        simp only [beq_iff_eq] at hc
        exact absurd (hc ▸ List.mem_map_of_mem BizRow.date ha) hnd.1
      simp [hnone]
    · have hne : (x.date == z) = false := by
        simp only [beq_eq_false_iff_ne, ne_eq]
        intro hc
        exact hnd.1 (hc ▸ hmem)
      simp only [hne, Bool.false_eq_true, if_false]
      exact ih z hnd.2 hmem

/-- C3: the table returned by clean_business_data has pairwise distinct
dates, and every input record with a parseable date is represented by
exactly one record for that date: duplicates collapse to one. -/
theorem c3_unique_dates :
    ∀ (df : BizDF) (rows : List BizRow), clean_business_data df = .ok rows →
      (rows.map BizRow.date).Nodup ∧
      ∀ (raw : BizRawRow) (z : ℤ), raw ∈ df.rows → raw.date = .valid z →
        (rows.filter (fun r => r.date == z)).length = 1 := by
  intro df rows h
  unfold clean_business_data at h
  cases hD : bizDerivedRows df with
  | error e => rw [hD] at h; cases h
  | ok pre =>
    rw [hD] at h
    cases h
    refine ⟨dropDuplicates_nodup pre [], ?_⟩
    intro raw z hraw hz
    unfold bizDerivedRows at hD
    cases hP : parseBizDates df.rows with
    | error e => rw [hP] at hD; cases hD
    | ok dated =>
      rw [hP] at hD
      cases hD
      have hmemd : (z, raw) ∈ dated := parseBizDates_mem_valid hP raw hraw z hz
      have hmem : deriveBizRow (z, raw) ∈ dated.map deriveBizRow :=
        List.mem_map_of_mem deriveBizRow hmemd
      have hdate : (deriveBizRow (z, raw)).date = z := rfl
      rcases dropDuplicates_covers (dated.map deriveBizRow) [] (deriveBizRow (z, raw)) hmem
        with hseen | ⟨r, hr, hrd⟩
      · cases hseen
      · apply filter_date_length_one _ z (dropDuplicates_nodup _ [])
        rw [← hdate, ← hrd]
        exact List.mem_map_of_mem BizRow.date hr

/-- C10 (implicit): de-duplication keeps the first occurrence in input
order: every kept record is the first record of the derived (pre-dedup)
table bearing its date, and every derived record's date is represented
among the kept records. -/
theorem c10_keep_first_date :
    ∀ (df : BizDF) (pre rows : List BizRow),
      bizDerivedRows df = .ok pre → clean_business_data df = .ok rows →
      (∀ r ∈ rows, pre.find? (fun x => x.date == r.date) = some r) ∧
      ∀ x ∈ pre, ∃ r ∈ rows, r.date = x.date := by
  intro df pre rows hpre h
  unfold clean_business_data at h
  rw [hpre] at h
  cases h
  constructor
  · intro r hr
    exact (dropDuplicates_not_seen_find pre [] r hr).2
  · intro x hx
    rcases dropDuplicates_covers pre [] x hx with hseen | hex
    · cases hseen
    · exact hex

/-- Witness for C3 on the table with two records for date 1. -/
theorem c3_unique_dates_witness :
    (c3wRows.map BizRow.date).Nodup ∧
    (c3wRows.filter (fun r => r.date == (1 : ℤ))).length = 1 := by
  have h := c3_unique_dates c3wDF c3wRows (by with_unfolding_all rfl)
  refine ⟨h.1, ?_⟩
  exact h.2
    { date := .valid 1, total_revenue := .val (.num 10), gross_profit := .val (.num 5),
      COGS := .val (.num 5), num_of_orders := .num 2, rowid := 0 } 1
    (by simp [c3wDF]) rfl

/-- Witness for C10 on the same table: each kept record is the first
derived record of its date. -/
theorem c10_keep_first_date_witness :
    (∀ r ∈ c3wRows, c3wPre.find? (fun x => x.date == r.date) = some r) ∧
    ∀ x ∈ c3wPre, ∃ r ∈ c3wRows, r.date = x.date :=
  c10_keep_first_date c3wDF c3wPre c3wRows (by with_unfolding_all rfl)
    (by with_unfolding_all rfl)

theorem mem_insertSortedZ (z y : ℤ) :
    ∀ (l : List ℤ), y ∈ insertSortedZ z l ↔ y = z ∨ y ∈ l := by
  intro l
  induction l with
  | nil => simp [insertSortedZ]
  | cons a rest ih =>
    unfold insertSortedZ
    by_cases h : z ≤ a
    · rw [if_pos h]
      simp
    · rw [if_neg h]
      simp only [List.mem_cons, ih]
      tauto

theorem mem_sortZ (y : ℤ) : ∀ (l : List ℤ), y ∈ sortZ l ↔ y ∈ l := by
  intro l
  induction l with
  | nil => simp [sortZ]
  | cons a rest ih =>
    have hstep : sortZ (a :: rest) = insertSortedZ a (sortZ rest) := rfl
    rw [hstep, mem_insertSortedZ]
    simp only [List.mem_cons, ih]

theorem mem_uniqueDatesSorted (mk : List MkRow) (z : ℤ) :
    z ∈ uniqueDatesSorted mk ↔ z ∈ mk.map MkRow.date := by
  unfold uniqueDatesSorted
  rw [mem_sortZ, List.mem_dedup]

theorem leftJoinRow_date (daily : List DailyRow) (b : BizRow) :
    (leftJoinRow daily b).date = b.date := by
  unfold leftJoinRow
  split <;> rfl

theorem groupbyDate_map_date (mk : List MkRow) :
    (groupbyDate mk).map DailyRow.date = uniqueDatesSorted mk := by
  unfold groupbyDate
  rw [List.map_map]
  exact List.map_id _

/-- The dates of the unified table are the business dates followed by the
marketing-only dates. -/
theorem create_unified_map_date (biz : List BizRow) (mk : List MkRow) :
    (create_unified_dataset biz mk).map (fun u => u.date) =
      biz.map BizRow.date ++
        ((groupbyDate mk).filter
          (fun m => !(biz.any (fun b => b.date == m.date)))).map DailyRow.date := by
  unfold create_unified_dataset mergeOuter rightOnlyRows
  rw [List.map_map, List.map_map, List.map_append, List.map_map, List.map_map]
  congr 1
  all_goals
    apply List.map_congr_left
    intro a _
    exact leftJoinRow_date (groupbyDate mk) a

/-- C4: the date set of the unified table equals the union of the
business dates and the daily-aggregated ad-table dates (whose date set in
turn equals the combined ad-table dates), and on a date present on only
one side every field of the other side is 0 after the fill, not left
missing. -/
theorem c4_outer_join_complete :
    ∀ (biz : List BizRow) (mk : List MkRow),
      (∀ z : ℤ, z ∈ (create_unified_dataset biz mk).map (fun u => u.date) ↔
        (z ∈ biz.map BizRow.date ∨ z ∈ (groupbyDate mk).map DailyRow.date)) ∧
      (∀ z : ℤ, z ∈ (groupbyDate mk).map DailyRow.date ↔ z ∈ mk.map MkRow.date) ∧
      (∀ u ∈ create_unified_dataset biz mk,
        (u.date ∉ (groupbyDate mk).map DailyRow.date →
          u.spend = FVal.num 0 ∧ u.attributed_revenue = FVal.num 0 ∧
          u.clicks = FVal.num 0 ∧ u.impression = FVal.num 0 ∧
          u.daily_roas = FVal.num 0 ∧ u.daily_ctr = FVal.num 0) ∧
        (u.date ∉ biz.map BizRow.date →
          u.total_revenue = FVal.num 0 ∧ u.gross_profit = FVal.num 0 ∧
          u.COGS = FVal.num 0 ∧ u.num_of_orders = FVal.num 0 ∧
          u.profit_margin = FVal.num 0 ∧ u.avg_order_value = FVal.num 0)) := by
  intro biz mk
  refine ⟨?_, ?_, ?_⟩
  · intro z
    rw [create_unified_map_date]
    rw [List.mem_append]
    constructor
    · rintro (hl | hr)
      · exact Or.inl hl
      · obtain ⟨m, hm, hdz⟩ := List.mem_map.mp hr
        exact Or.inr (List.mem_map.mpr ⟨m, List.mem_of_mem_filter hm, hdz⟩)
    · rintro (hl | hr)
      · exact Or.inl hl
      · by_cases hb : z ∈ biz.map BizRow.date
        · exact Or.inl hb
        · obtain ⟨m, hm, hdz⟩ := List.mem_map.mp hr
          refine Or.inr (List.mem_map.mpr ⟨m, List.mem_filter.mpr ⟨hm, ?_⟩, hdz⟩)
          have hany : biz.any (fun b => b.date == m.date) = false := by
            rw [List.any_eq_false]
            intro b hbmem hc
            simp only [beq_iff_eq] at hc
            exact hb (hdz ▸ hc ▸ List.mem_map_of_mem BizRow.date hbmem)
          rw [hany]
          rfl
  · intro z
    rw [groupbyDate_map_date]
    exact mem_uniqueDatesSorted mk z
  · intro u hu
    unfold create_unified_dataset at hu
    obtain ⟨m1, hm1, rfl⟩ := List.mem_map.mp hu
    obtain ⟨m, hm, rfl⟩ := List.mem_map.mp hm1
    rcases List.mem_append.mp hm with hleft | hright
    · obtain ⟨b, hb, rfl⟩ := List.mem_map.mp hleft
      constructor
      · intro hnd
        cases hfind : (groupbyDate mk).find? (fun mm => mm.date == b.date) with
        | some mm =>
          exfalso
          have hmm : mm ∈ groupbyDate mk := List.mem_of_find?_eq_some hfind
          have hmmd := List.find?_some hfind
          have hdd : mm.date = b.date := by simpa using hmmd
          have hud : (addEfficiency (fillnaMerged (leftJoinRow (groupbyDate mk) b))).date
              = b.date := leftJoinRow_date (groupbyDate mk) b
          apply hnd
          rw [hud, ← hdd]
          exact List.mem_map_of_mem DailyRow.date hmm
        | none =>
          have hlj : leftJoinRow (groupbyDate mk) b =
              { date := b.date, total_revenue := b.total_revenue,
                gross_profit := b.gross_profit, COGS := b.COGS,
                num_of_orders := b.num_of_orders, profit_margin := b.profit_margin,
                avg_order_value := b.avg_order_value, spend := .nan,
                attributed_revenue := .nan, clicks := .nan, impression := .nan,
                daily_roas := .nan, daily_ctr := .nan } := by
            unfold leftJoinRow
            rw [hfind]
          rw [hlj]
          exact ⟨rfl, rfl, rfl, rfl, rfl, rfl⟩
      · intro hnb
        exfalso
        apply hnb
        have hud : (addEfficiency (fillnaMerged (leftJoinRow (groupbyDate mk) b))).date
            = b.date := leftJoinRow_date (groupbyDate mk) b
        rw [hud]
        exact List.mem_map_of_mem BizRow.date hb
    · obtain ⟨mm, hmm, rfl⟩ := List.mem_map.mp hright
      constructor
      · intro hnd
        exfalso
        apply hnd
        exact List.mem_map_of_mem DailyRow.date (List.mem_of_mem_filter hmm)
      · intro _
        exact ⟨rfl, rfl, rfl, rfl, rfl, rfl⟩

/-- Witness for C4 on one business-only date and one marketing-only
date: the absent side of each unified row is 0, and the daily table
dates coincide with the ad-table dates. -/
theorem c4_outer_join_complete_witness :
    (c4wU1.spend = FVal.num 0 ∧ c4wU1.attributed_revenue = FVal.num 0 ∧
      c4wU1.clicks = FVal.num 0 ∧ c4wU1.impression = FVal.num 0 ∧
      c4wU1.daily_roas = FVal.num 0 ∧ c4wU1.daily_ctr = FVal.num 0) ∧
    (c4wU2.total_revenue = FVal.num 0 ∧ c4wU2.gross_profit = FVal.num 0 ∧
      c4wU2.COGS = FVal.num 0 ∧ c4wU2.num_of_orders = FVal.num 0 ∧
      c4wU2.profit_margin = FVal.num 0 ∧ c4wU2.avg_order_value = FVal.num 0) ∧
    ((2 : ℤ) ∈ (groupbyDate c4wMk).map DailyRow.date ↔
      (2 : ℤ) ∈ c4wMk.map MkRow.date) := by
  have hU : create_unified_dataset c4wBiz c4wMk = [c4wU1, c4wU2] := by
    with_unfolding_all rfl
  have hD : (groupbyDate c4wMk).map DailyRow.date = [(2 : ℤ)] := by
    with_unfolding_all rfl
  have h := c4_outer_join_complete c4wBiz c4wMk
  refine ⟨?_, ?_, h.2.1 2⟩
  · refine h.2.2 c4wU1 ?_ |>.1 ?_
    · rw [hU]; exact List.mem_cons_self _ _
    · rw [show c4wU1.date = (1 : ℤ) from rfl, hD]
      simp
  · refine h.2.2 c4wU2 ?_ |>.2 ?_
    · rw [hU]; exact List.mem_cons_of_mem _ (List.mem_cons_self _ _)
    · rw [show c4wU2.date = (2 : ℤ) from rfl, show c4wBiz.map BizRow.date = [(1 : ℤ)] from rfl]
      simp

/-- Counterexample to C6: 17 Facebook records sharing one date enter the
combiner with rowids 0..16 in order, and leave it in the order
0,14,13,...: the default sorting algorithm of sort_values (the numpy
introsort) reorders rows that share a date, so ties do not preserve the
input order. -/
theorem c6_counterexample :
    (combine_marketing_data c6fbDF emptyMkDF emptyMkDF).map
        (List.map (fun r => r.rowid)) =
      .ok [0, 14, 13, 12, 11, 10, 9, 15, 8, 6, 5, 4, 3, 2, 1, 7, 16] ∧
    c6fbDF.rows.map MkRawRow.rowid = List.range 17 ∧
    ([0, 14, 13, 12, 11, 10, 9, 15, 8, 6, 5, 4, 3, 2, 1, 7, 16] : List Nat) ≠
      List.range 17 := by
  refine ⟨?_, ?_, ?_⟩
  · with_unfolding_all rfl
  · with_unfolding_all rfl
  · decide

/-! ## Correctness of the modelled numpy sort -/

theorem take_get_drop :
    ∀ (l : List α) (n : Nat) (h : n < l.length),
      l.take n ++ l.get ⟨n, h⟩ :: l.drop (n + 1) = l := by
  intro l
  induction l with
  | nil => intro n h; cases h
  | cons x xs ih =>
    intro n h
    cases n with
    | zero => simp
    | succ m =>
      have h2 : m < xs.length := by simpa using h
      show x :: (xs.take m ++ xs.get ⟨m, h2⟩ :: xs.drop (m + 1)) = x :: xs
      rw [ih m h2]

theorem set_get_self :
    ∀ (l : List α) (i : Nat) (h : i < l.length), l.set i (l.get ⟨i, h⟩) = l := by
  intro l
  induction l with
  | nil => intro i h; cases h
  | cons x xs ih =>
    intro i h
    cases i with
    | zero => simp
    | succ m =>
      have h2 : m < xs.length := by simpa using h
      show x :: xs.set m (xs.get ⟨m, h2⟩) = x :: xs
      rw [ih m h2]

theorem cons_set_perm :
    ∀ (xs : List α) (k : Nat) (hk : k < xs.length) (x : α),
      (xs.get ⟨k, hk⟩ :: xs.set k x).Perm (x :: xs) := by
  intro xs
  induction xs with
  | nil => intro k hk; cases hk
  | cons y ys ih =>
    intro k hk x
    cases k with
    | zero =>
      simpa using List.Perm.swap x y ys
    | succ m =>
      have hm : m < ys.length := by simpa using hk
      show (ys.get ⟨m, hm⟩ :: y :: ys.set m x).Perm (x :: y :: ys)
      exact (List.Perm.swap _ _ _).trans (((ih m hm x).cons y).trans (List.Perm.swap _ _ _))

theorem set_swap_perm :
    ∀ (l : List α) (i j : Nat) (hi : i < l.length) (hj : j < l.length),
      ((l.set i (l.get ⟨j, hj⟩)).set j (l.get ⟨i, hi⟩)).Perm l := by
  intro l
  induction l with
  | nil => intro i j hi; cases hi
  | cons x xs ih =>
    intro i j hi hj
    cases i with
    | zero =>
      cases j with
      | zero => simp
      | succ m =>
        have hm : m < xs.length := by simpa using hj
        simpa using cons_set_perm xs m hm x
    | succ k =>
      cases j with
      | zero =>
        have hk : k < xs.length := by simpa using hi
        simpa using cons_set_perm xs k hk x
      | succ m =>
        have hk : k < xs.length := by simpa using hi
        have hm : m < xs.length := by simpa using hj
        simpa using (ih k m hk hm).cons x

theorem asetD_size (a : Array α) (i : Nat) (v : α) : (asetD a i v).size = a.size := by
  unfold asetD
  split <;> simp

theorem agetD_eq_get (a : Array α) (i : Nat) (d : α) (h : i < a.size) :
    agetD a i d = a.toList.get ⟨i, by simpa using h⟩ := by
  unfold agetD
  rw [dif_pos h]
  rfl

theorem agetD_oob (a : Array α) (i : Nat) (d : α) (h : ¬ i < a.size) :
    agetD a i d = d := by
  unfold agetD
  rw [dif_neg h]

theorem aswap_toList_perm (a : Array α) (i j : Nat) :
    (aswap a i j).toList.Perm a.toList := by
  unfold aswap
  split
  · next h =>
    have hp := set_swap_perm a.toList i j (by simpa using h.1) (by simpa using h.2)
    simpa using hp
  · exact List.Perm.refl _

theorem agetD_aswap_ne (a : Array α) (i j k : Nat) (d : α) (hki : k ≠ i) (hkj : k ≠ j) :
    agetD (aswap a i j) k d = agetD a k d := by
  unfold aswap
  split
  · next h =>
    by_cases hk : k < a.size
    · rw [agetD_eq_get _ _ _ (by simpa using hk), agetD_eq_get _ _ _ hk]
      simp only [Array.toList_set, List.get_eq_getElem]
      rw [List.getElem_set_ne (show j ≠ k from fun he => hkj he.symm),
        List.getElem_set_ne (show i ≠ k from fun he => hki he.symm)]
    · rw [agetD_oob _ _ _ (by simpa using hk), agetD_oob _ _ _ hk]
  · rfl

theorem agetD_aswap_fst (a : Array α) (i j : Nat) (d : α)
    (hi : i < a.size) (hj : j < a.size) :
    agetD (aswap a i j) i d = agetD a j d := by
  unfold aswap
  rw [dif_pos ⟨hi, hj⟩]
  by_cases hij : i = j
  · subst hij
    rw [agetD_eq_get _ _ _ (by simpa using hi), agetD_eq_get _ _ _ hi]
    simp
  · rw [agetD_eq_get _ _ _ (by simpa using hi), agetD_eq_get _ _ _ hj]
    simp only [Array.toList_set, List.get_eq_getElem]
    rw [List.getElem_set_ne (show j ≠ i from fun he => hij he.symm)]
    rw [List.getElem_set_self]
    rfl

theorem agetD_aswap_snd (a : Array α) (i j : Nat) (d : α)
    (hi : i < a.size) (hj : j < a.size) :
    agetD (aswap a i j) j d = agetD a i d := by
  unfold aswap
  rw [dif_pos ⟨hi, hj⟩]
  rw [agetD_eq_get _ _ _ (by simpa using hj), agetD_eq_get _ _ _ hi]
  simp only [Array.toList_set, List.get_eq_getElem]
  rw [List.getElem_set_self]
  rfl

/-- Specification of the upward scan: it lands on the first index at or
above the start whose key is not below the pivot, provided such an index
exists. -/
theorem scanUp_spec (key : α → ℤ) (vp : ℤ) (a : Array α) (d : α) :
    ∀ (fuel i : Nat), a.size - i ≤ fuel →
      (∃ t, i ≤ t ∧ t < a.size ∧ ¬ key (agetD a t d) < vp) →
      i ≤ scanUp key vp a i ∧ scanUp key vp a i < a.size ∧
        ¬ key (agetD a (scanUp key vp a i) d) < vp ∧
        ∀ k, i ≤ k → k < scanUp key vp a i → key (agetD a k d) < vp := by
  intro fuel
  induction fuel with
  | zero =>
    intro i hfu hex
    obtain ⟨t, hit, hts, _⟩ := hex
    omega
  | succ m ih =>
    intro i hfu hex
    unfold scanUp
    by_cases hi : i < a.size
    · rw [dif_pos hi]
      by_cases hk : key (a.get ⟨i, hi⟩) < vp
      · rw [if_pos hk]
        have hgi : agetD a i d = a.get ⟨i, hi⟩ := by
          rw [agetD_eq_get a i d hi]; rfl
        have hex2 : ∃ t, i + 1 ≤ t ∧ t < a.size ∧ ¬ key (agetD a t d) < vp := by
          obtain ⟨t, hit, hts, htk⟩ := hex
          refine ⟨t, ?_, hts, htk⟩
          rcases Nat.eq_or_lt_of_le hit with rfl | hlt
          · exact absurd (hgi ▸ hk) htk
          · exact hlt
        obtain ⟨h1, h2, h3, h4⟩ := ih (i + 1) (by omega) hex2
        refine ⟨by omega, h2, h3, ?_⟩
        intro k hik hks
        rcases Nat.eq_or_lt_of_le hik with rfl | hlt
        · exact hgi ▸ hk
        · exact h4 k hlt hks
      · rw [if_neg hk]
        have hgi : agetD a i d = a.get ⟨i, hi⟩ := by
          rw [agetD_eq_get a i d hi]; rfl
        exact ⟨Nat.le_refl i, hi, hgi ▸ hk, fun k h1 h2 => absurd (Nat.lt_of_le_of_lt h1 h2)
          (Nat.lt_irrefl i)⟩
    · obtain ⟨t, hit, hts, _⟩ := hex
      omega

/-- Specification of the downward scan: it ends at or below the start, it
ends on a key not above the pivot unless it hits the bottom, and every
index it passed has a key strictly above the pivot. -/
theorem scanDown_spec (key : α → ℤ) (vp : ℤ) (a : Array α) (d : α) :
    ∀ (j : Nat), j < a.size →
      scanDown key vp a j ≤ j ∧
        (scanDown key vp a j = 0 ∨ ¬ vp < key (agetD a (scanDown key vp a j) d)) ∧
        ∀ k, scanDown key vp a j < k → k ≤ j → vp < key (agetD a k d) := by
  intro j
  induction j with
  | zero =>
    intro _
    exact ⟨Nat.le_refl 0, Or.inl rfl, fun k h1 h2 => by omega⟩
  | succ m ih =>
    intro hj
    unfold scanDown
    rw [dif_pos hj]
    have hgj : agetD a (m + 1) d = a.get ⟨m + 1, hj⟩ := by
      rw [agetD_eq_get a (m + 1) d hj]; rfl
    by_cases hk : vp < key (a.get ⟨m + 1, hj⟩)
    · rw [if_pos hk]
      obtain ⟨h1, h2, h3⟩ := ih (by omega)
      refine ⟨by omega, h2, ?_⟩
      intro k hk1 hk2
      rcases Nat.eq_or_lt_of_le hk2 with rfl | hlt
      · exact hgj ▸ hk
      · exact h3 k hk1 (by omega)
    · rw [if_neg hk]
      exact ⟨Nat.le_refl _, Or.inr (hgj ▸ hk), fun k h1 h2 => by omega⟩

/-- Invariant of the partition swap loop: left of the scan front every
key is at most the pivot, right of the back every key is at least the
pivot, and the parked pivot cell is untouched.  On exit the clamped split
index separates keys at most the pivot from keys at least the pivot. -/
theorem partLoop_post (key : α → ℤ) (vp : ℤ) (d : α) (n : Nat) :
    ∀ (fuel : Nat) (a : Array α) (pi pj : Nat),
      a.size = n →
      pj + 1 - pi ≤ fuel →
      pi ≤ pj → pj ≤ n - 2 → 17 ≤ n →
      (∀ k, k ≤ pi → key (agetD a k d) ≤ vp) →
      (∀ k, pj ≤ k → k ≤ n - 1 → vp ≤ key (agetD a k d)) →
      key (agetD a (n - 2) d) = vp →
      (partLoop key vp a pi pj fuel).1.size = n ∧
        (∀ k, k < min (partLoop key vp a pi pj fuel).2 (n - 2) →
          key (agetD (partLoop key vp a pi pj fuel).1 k d) ≤ vp) ∧
        (∀ k, min (partLoop key vp a pi pj fuel).2 (n - 2) ≤ k → k ≤ n - 1 →
          vp ≤ key (agetD (partLoop key vp a pi pj fuel).1 k d)) ∧
        key (agetD (partLoop key vp a pi pj fuel).1 (n - 2) d) = vp := by
  intro fuel
  induction fuel with
  | zero =>
    intro a pi pj hsz hfu hle hpj hn hL hR hP
    omega
  | succ m ih =>
    intro a pi pj hsz hfu hle hpj hn hL hR hP
    have hsup := scanUp_spec key vp a d (a.size - (pi + 1)) (pi + 1) (Nat.le_refl _)
      ⟨max pj (pi + 1), Nat.le_max_right _ _, by omega, by
        apply not_lt_of_ge
        apply le_of_eq_of_le rfl
        exact hR (max pj (pi + 1)) (Nat.le_max_left _ _) (by omega)⟩
    set piN := scanUp key vp a (pi + 1) with hpidef
    obtain ⟨hS1, hS2, hS3, hS4⟩ := hsup
    have hsdn := scanDown_spec key vp a d (pj - 1) (by omega)
    set pjN := scanDown key vp a (pj - 1) with hpjdef
    obtain ⟨hD1, hD2, hD3⟩ := hsdn
    have hD2' : key (agetD a pjN d) ≤ vp := by
      rcases hD2 with h0 | hnl
      · rw [h0]
        exact hL 0 (Nat.zero_le _)
      · exact le_of_not_lt hnl
    have hstep : partLoop key vp a pi pj (m + 1) =
        if pjN ≤ piN then (a, piN)
        else partLoop key vp (aswap a piN pjN) piN pjN m := by
      rw [partLoop, ← hpidef, ← hpjdef]
    by_cases hbr : pjN ≤ piN
    · rw [hstep, if_pos hbr]
      refine ⟨hsz, ?_, ?_, hP⟩
      · intro k hk
        rcases Nat.lt_or_ge k (pi + 1) with hkp | hkp
        · exact hL k (by omega)
        · exact le_of_lt (hS4 k hkp (by omega))
      · intro k hk1 hk2
        rcases Nat.lt_or_ge k piN with hklt | hkge
        · have hkn2 : k = n - 2 := by omega
          rw [hkn2, hP]
        · rcases Nat.eq_or_lt_of_le hkge with rfl | hkgt
          · exact le_of_not_lt hS3
          · rcases Nat.lt_or_ge k pj with hkpj | hkpj
            · exact le_of_lt (hD3 k (by omega) (by omega))
            · exact hR k hkpj hk2
    · rw [hstep, if_neg hbr]
      have hlt : piN < pjN := by omega
      have hpjn : pjN < a.size := by omega
      have hpin : piN < a.size := by omega
      apply ih
      · rw [aswap_size, hsz]
      · omega
      · omega
      · omega
      · omega
      · intro k hk
        rcases Nat.eq_or_lt_of_le hk with rfl | hklt
        · rw [agetD_aswap_fst a piN pjN d hpin hpjn]
          exact hD2'
        · rw [agetD_aswap_ne a piN pjN k d (by omega) (by omega)]
          rcases Nat.lt_or_ge k (pi + 1) with hkp | hkp
          · exact hL k (by omega)
          · exact le_of_lt (hS4 k hkp (by omega))
      · intro k hk1 hk2
        rcases Nat.eq_or_lt_of_le hk1 with rfl | hkgt
        · rw [agetD_aswap_snd a piN pjN d hpin hpjn]
          exact le_of_not_lt hS3
        · rw [agetD_aswap_ne a piN pjN k d (by omega) (by omega)]
          rcases Nat.lt_or_ge k pj with hkpj | hkpj
          · exact le_of_lt (hD3 k (by omega) (by omega))
          · exact hR k hkpj hk2
      · rw [agetD_aswap_ne a piN pjN (n - 2) d (by omega) (by omega)]
        exact hP

/-- Correctness of the median-of-three step: afterwards the first key is
at most the middle key, which is at most the last key. -/
theorem median3_props (key : α → ℤ) (a0 : Array α) (pm pr : Nat) (d : α)
    (h1 : 0 < pm) (h2 : pm < pr) (h3 : pr < a0.size) :
    key (agetD (median3 key a0 pm pr d) 0 d) ≤
        key (agetD (median3 key a0 pm pr d) pm d) ∧
      key (agetD (median3 key a0 pm pr d) pm d) ≤
        key (agetD (median3 key a0 pm pr d) pr d) := by
  have h0 : 0 < a0.size := by omega
  have hpm : pm < a0.size := by omega
  unfold median3
  dsimp only
  set a1 := if key (agetD a0 pm d) < key (agetD a0 0 d) then aswap a0 pm 0 else a0 with ha1
  have hs1 : a1.size = a0.size := by
    rw [ha1]; split <;> simp [aswap_size]
  have hL1 : key (agetD a1 0 d) ≤ key (agetD a1 pm d) := by
    rw [ha1]; split
    · next hc =>
      rw [agetD_aswap_snd a0 pm 0 d hpm h0, agetD_aswap_fst a0 pm 0 d hpm h0]
      exact le_of_lt hc
    · next hc => exact le_of_not_lt hc
  have hpm1 : pm < a1.size := by omega
  have hpr1 : pr < a1.size := by omega
  set a2 := if key (agetD a1 pr d) < key (agetD a1 pm d) then aswap a1 pr pm else a1 with ha2
  have hs2 : a2.size = a0.size := by
    rw [ha2]; split <;> simp [aswap_size, hs1]
  have hL2a : key (agetD a2 pm d) ≤ key (agetD a2 pr d) := by
    rw [ha2]; split
    · next hc =>
      rw [agetD_aswap_snd a1 pr pm d hpr1 hpm1, agetD_aswap_fst a1 pr pm d hpr1 hpm1]
      exact le_of_lt hc
    · next hc => exact le_of_not_lt hc
  have hL2b : key (agetD a2 0 d) ≤ key (agetD a2 pr d) := by
    rw [ha2]; split
    · next hc =>
      rw [agetD_aswap_ne a1 pr pm 0 d (by omega) (by omega),
        agetD_aswap_fst a1 pr pm d hpr1 hpm1]
      exact hL1
    · next hc => exact hL1.trans (le_of_not_lt hc)
  have hpm2 : pm < a2.size := by omega
  have h02 : 0 < a2.size := by omega
  split
  · next hc =>
    rw [agetD_aswap_snd a2 pm 0 d hpm2 h02, agetD_aswap_fst a2 pm 0 d hpm2 h02,
      agetD_aswap_ne a2 pm 0 pr d (by omega) (by omega)]
    exact ⟨le_of_lt hc, hL2b⟩
  · next hc => exact ⟨le_of_not_lt hc, hL2a⟩

theorem ite_aswap_perm (c : Prop) [Decidable c] (a : Array α) (i j : Nat) :
    (if c then aswap a i j else a).toList.Perm a.toList := by
  split
  · exact aswap_toList_perm a i j
  · exact List.Perm.refl _

theorem median3_perm (key : α → ℤ) (a0 : Array α) (pm pr : Nat) (d : α) :
    (median3 key a0 pm pr d).toList.Perm a0.toList := by
  unfold median3
  dsimp only
  exact (ite_aswap_perm _ _ _ _).trans ((ite_aswap_perm _ _ _ _).trans
    (ite_aswap_perm _ _ _ _))

theorem partLoop_perm (key : α → ℤ) (vp : ℤ) :
    ∀ (fuel : Nat) (a : Array α) (pi pj : Nat),
      (partLoop key vp a pi pj fuel).1.toList.Perm a.toList := by
  intro fuel
  induction fuel with
  | zero => intro a pi pj; exact List.Perm.refl _
  | succ m ih =>
    intro a pi pj
    unfold partLoop
    dsimp only
    split
    · exact List.Perm.refl _
    · exact (ih _ _ _).trans (aswap_toList_perm _ _ _)

theorem mem_take_get {x : α} :
    ∀ (l : List α) (m : Nat), x ∈ l.take m →
      ∃ (k : Nat) (hk : k < l.length), k < m ∧ l.get ⟨k, hk⟩ = x := by
  intro l m hx
  obtain ⟨⟨k, hk⟩, hget⟩ := List.mem_iff_get.mp hx
  have hkl : k < l.length := by
    have := hk
    simp only [List.length_take] at this
    omega
  have hkm : k < m := by
    have := hk
    simp only [List.length_take] at this
    omega
  refine ⟨k, hkl, hkm, ?_⟩
  rw [← hget]
  simp [List.get_eq_getElem, List.getElem_take]

theorem mem_drop_get {x : α} :
    ∀ (l : List α) (m : Nat), x ∈ l.drop m →
      ∃ (k : Nat) (hk : k < l.length), m ≤ k ∧ l.get ⟨k, hk⟩ = x := by
  intro l m hx
  obtain ⟨⟨k, hk⟩, hget⟩ := List.mem_iff_get.mp hx
  have hkl : m + k < l.length := by
    have := hk
    simp only [List.length_drop] at this
    omega
  refine ⟨m + k, hkl, by omega, ?_⟩
  rw [← hget]
  simp only [List.get_eq_getElem]
  rw [List.getElem_drop]

/-- Full specification of the partition step on a segment of at least 17
elements: the three returned pieces are a permutation of the segment,
every left element's key is at most the pivot key, and every right
element's key is at least the pivot key. -/
theorem npPartition_spec (key : α → ℤ) (l : List α) (d : α) (h17 : 17 ≤ l.length) :
    ((npPartition key l d).1 ++
        (npPartition key l d).2.1 :: (npPartition key l d).2.2).Perm l ∧
      (∀ x ∈ (npPartition key l d).1, key x ≤ key (npPartition key l d).2.1) ∧
      (∀ x ∈ (npPartition key l d).2.2, key (npPartition key l d).2.1 ≤ key x) := by
  unfold npPartition
  dsimp only
  set n := l.length with hn
  set pm := (n - 1) / 2 with hpmdef
  set a3 := median3 key l.toArray pm (n - 1) d with ha3
  have hs3 : a3.size = n := by
    rw [ha3, median3_size]
  set vp := key (agetD a3 pm d) with hvp
  set a4 := aswap a3 pm (n - 2) with ha4
  have hs4 : a4.size = n := by rw [ha4, aswap_size, hs3]
  have hpm3 : pm < a3.size := by omega
  have hn23 : n - 2 < a3.size := by omega
  have hmed := median3_props key l.toArray pm (n - 1) d (by omega) (by omega)
    (by simp only [Array.size_toArray]; omega)
  rw [← ha3] at hmed
  have hP4 : key (agetD a4 (n - 2) d) = vp := by
    rw [ha4, agetD_aswap_snd a3 pm (n - 2) d hpm3 hn23]
  have hL4 : ∀ k, k ≤ 0 → key (agetD a4 k d) ≤ vp := by
    intro k hk
    interval_cases k
    rw [ha4, agetD_aswap_ne a3 pm (n - 2) 0 d (by omega) (by omega)]
    exact hmed.1
  have hR4 : ∀ k, n - 2 ≤ k → k ≤ n - 1 → vp ≤ key (agetD a4 k d) := by
    intro k hk1 hk2
    rcases Nat.eq_or_lt_of_le hk1 with rfl | hlt
    · rw [hP4]
    · have hk3 : k = n - 1 := by omega
      subst hk3
      rw [ha4, agetD_aswap_ne a3 pm (n - 2) (n - 1) d (by omega) (by omega)]
      exact hmed.2
  have hpost := partLoop_post key vp d n n a4 0 (n - 2) hs4 (by omega) (by omega)
    (by omega) (by omega) hL4 hR4 hP4
  set r := partLoop key vp a4 0 (n - 2) n with hr
  obtain ⟨hrs, hF1, hF2, hFP⟩ := hpost
  set pif := min r.2 (n - 2) with hpif
  have hpifb : pif ≤ n - 2 := by omega
  have hpifr : pif < r.1.size := by omega
  have hn2r : n - 2 < r.1.size := by omega
  set a5 := aswap r.1 pif (n - 2) with ha5
  have hs5 : a5.size = n := by rw [ha5, aswap_size, hrs]
  have hpiv : key (agetD a5 pif d) = vp := by
    rw [ha5, agetD_aswap_fst r.1 pif (n - 2) d hpifr hn2r]
    exact hFP
  have hA5 : ∀ k, k < pif → key (agetD a5 k d) ≤ vp := by
    intro k hk
    rw [ha5, agetD_aswap_ne r.1 pif (n - 2) k d (by omega) (by omega)]
    exact hF1 k (by omega)
  have hB5 : ∀ k, pif < k → k ≤ n - 1 → vp ≤ key (agetD a5 k d) := by
    intro k hk1 hk2
    by_cases hk3 : k = n - 2
    · subst hk3
      rw [ha5, agetD_aswap_snd r.1 pif (n - 2) d hpifr hn2r]
      exact hF2 pif (by omega) (by omega)
    · rw [ha5, agetD_aswap_ne r.1 pif (n - 2) k d (by omega) (by omega)]
      exact hF2 k (by omega) (by omega)
  have hlen5 : a5.toList.length = n := by
    rw [Array.length_toList, hs5]
  have hpifl : pif < a5.toList.length := by omega
  have hget5 : agetD a5 pif d = a5.toList.get ⟨pif, hpifl⟩ :=
    agetD_eq_get a5 pif d (by omega)
  have hperm5 : a5.toList.Perm l := by
    have h1 : a5.toList.Perm r.1.toList := by rw [ha5]; exact aswap_toList_perm _ _ _
    have h2 : r.1.toList.Perm a4.toList := by rw [hr]; exact partLoop_perm _ _ _ _ _ _
    have h3 : a4.toList.Perm a3.toList := by rw [ha4]; exact aswap_toList_perm _ _ _
    have h4 : a3.toList.Perm l.toArray.toList := by rw [ha3]; exact median3_perm _ _ _ _ _
    have h5 : l.toArray.toList = l := by simp
    exact h1.trans (h2.trans (h3.trans (h5 ▸ h4)))
  refine ⟨?_, ?_, ?_⟩
  · rw [hget5]
    rw [take_get_drop a5.toList pif hpifl]
    exact hperm5
  · intro x hx
    obtain ⟨k, hk, hkm, hgx⟩ := mem_take_get a5.toList pif hx
    rw [← hgx, ← agetD_eq_get a5 k d (by omega), hpiv]
    exact hA5 k hkm
  · intro x hx
    obtain ⟨k, hk, hkm, hgx⟩ := mem_drop_get a5.toList (pif + 1) hx
    rw [← hgx, ← agetD_eq_get a5 k d (by omega), hpiv]
    exact hB5 k (by omega) (by omega)

theorem npInsert_perm (key : α → ℤ) (x : α) :
    ∀ (l : List α), (npInsert key x l).Perm (x :: l) := by
  intro l
  induction l with
  | nil => exact List.Perm.refl _
  | cons y ys ih =>
    unfold npInsert
    split
    · exact List.Perm.refl _
    · exact (ih.cons y).trans (List.Perm.swap _ _ _)

theorem npInsert_pairwise (key : α → ℤ) (x : α) :
    ∀ (l : List α), l.Pairwise (fun a b => key a ≤ key b) →
      (npInsert key x l).Pairwise (fun a b => key a ≤ key b) := by
  intro l
  induction l with
  | nil => intro _; simp [npInsert]
  | cons y ys ih =>
    intro hp
    rw [List.pairwise_cons] at hp
    unfold npInsert
    split
    · next hc =>
      rw [List.pairwise_cons]
      refine ⟨?_, List.pairwise_cons.mpr hp⟩
      intro z hz
      rcases List.mem_cons.mp hz with rfl | hmem
      · exact le_of_lt hc
      · exact (le_of_lt hc).trans (hp.1 z hmem)
    · next hc =>
      rw [List.pairwise_cons]
      constructor
      · intro z hz
        have hz2 := (npInsert_perm key x ys).mem_iff.mp hz
        rcases List.mem_cons.mp hz2 with rfl | hmem
        · exact le_of_not_lt hc
        · exact hp.1 z hmem
      · exact ih hp.2

theorem npInsSort_go (key : α → ℤ) :
    ∀ (l acc : List α), acc.Pairwise (fun a b => key a ≤ key b) →
      (List.foldl (fun acc x => npInsert key x acc) acc l).Pairwise
          (fun a b => key a ≤ key b) ∧
        (List.foldl (fun acc x => npInsert key x acc) acc l).Perm (acc ++ l) := by
  intro l
  induction l with
  | nil =>
    intro acc hp
    exact ⟨hp, by simp⟩
  | cons x xs ih =>
    intro acc hp
    simp only [List.foldl_cons]
    obtain ⟨h1, h2⟩ := ih (npInsert key x acc) (npInsert_pairwise key x acc hp)
    refine ⟨h1, h2.trans ?_⟩
    have hstep : (npInsert key x acc ++ xs).Perm ((x :: acc) ++ xs) :=
      (npInsert_perm key x acc).append_right xs
    refine hstep.trans ?_
    simp only [List.cons_append]
    exact List.perm_middle.symm

theorem npInsSort_pairwise (key : α → ℤ) (l : List α) :
    (npInsSort key l).Pairwise (fun a b => key a ≤ key b) :=
  (npInsSort_go key l [] (List.Pairwise.nil)).1

theorem npInsSort_perm (key : α → ℤ) (l : List α) :
    (npInsSort key l).Perm l := by
  have := (npInsSort_go key l [] (List.Pairwise.nil)).2
  simpa using this

theorem agetD_asetD_self (a : Array α) (i : Nat) (v d : α) (h : i < a.size) :
    agetD (asetD a i v) i d = v := by
  unfold asetD
  rw [dif_pos h]
  rw [agetD_eq_get _ _ _ (by simpa using h)]
  simp [List.get_eq_getElem, List.getElem_set_self]

theorem agetD_asetD_ne (a : Array α) (i k : Nat) (v d : α) (hki : k ≠ i) :
    agetD (asetD a i v) k d = agetD a k d := by
  unfold asetD
  split
  · next h =>
    by_cases hk : k < a.size
    · rw [agetD_eq_get _ _ _ (by simpa using hk), agetD_eq_get _ _ _ hk]
      simp only [Array.toList_set, List.get_eq_getElem]
      rw [List.getElem_set_ne (show i ≠ k from fun he => hki he.symm)]
    · rw [agetD_oob _ _ _ (by simpa using hk), agetD_oob _ _ _ hk]
  · rfl

theorem asetD_toList (a : Array α) (i : Nat) (v : α) (h : i < a.size) :
    (asetD a i v).toList = a.toList.set i v := by
  unfold asetD
  rw [dif_pos h]
  simp

/-- Exchanging one cell of a list, as a multiset identity. -/
theorem set_exchange (v : α) (l : List α) (i : Nat) (h : i < l.length) :
    ((l.set i v : List α) : Multiset α) + {l.get ⟨i, h⟩} =
      ((l : List α) : Multiset α) + {v} := by
  have hp := cons_set_perm l i h v
  have hms := Multiset.coe_eq_coe.mpr hp
  rw [← Multiset.cons_coe, ← Multiset.cons_coe] at hms
  rw [← Multiset.singleton_add, ← Multiset.singleton_add] at hms
  exact (add_comm _ _).trans (hms.trans (add_comm _ _))

/-- Postcondition of writing the sifted value into the final hole, used
both when the hole is a leaf and when neither child exceeds the value:
if every child of the hole is at most the written value, the subtree
pairs at or below the hole are heap-ordered afterwards. -/
theorem sift_write_post (key : α → ℤ) (d : α) (n' : Nat) (B : ℤ) (a : Array α)
    (tmp : α) (i : Nat)
    (h1 : 1 ≤ i) (h2 : i ≤ n') (hsz : n' ≤ a.size)
    (hheap : ∀ k, 2 ≤ k → k ≤ n' → i < k / 2 →
      key (agetD a (k - 1) d) ≤ key (agetD a (k / 2 - 1) d))
    (htmp : key tmp ≤ B)
    (hkids : ∀ k, 2 ≤ k → k ≤ n' → k / 2 = i → key (agetD a (k - 1) d) ≤ key tmp) :
    (∀ k, 2 ≤ k → k ≤ n' → i ≤ k / 2 →
        key (agetD (asetD a (i - 1) tmp) (k - 1) d) ≤
          key (agetD (asetD a (i - 1) tmp) (k / 2 - 1) d)) ∧
      key (agetD (asetD a (i - 1) tmp) (i - 1) d) ≤ B ∧
      (∀ p, 1 ≤ p → p ≠ i → (p < 2 * i ∨ n' < p) →
        agetD (asetD a (i - 1) tmp) (p - 1) d = agetD a (p - 1) d) ∧
      (asetD a (i - 1) tmp).size = a.size ∧
      (((asetD a (i - 1) tmp).toList : List α) : Multiset α) =
        (((asetD a (i - 1) tmp).toList : List α) : Multiset α) := by
  have hi1 : i - 1 < a.size := by omega
  refine ⟨?_, ?_, ?_, asetD_size a (i - 1) tmp, rfl⟩
  · intro k h2k hkn hik
    rcases Nat.eq_or_lt_of_le hik with heq | hgt
    · have hkne : k - 1 ≠ i - 1 := by omega
      rw [agetD_asetD_ne a (i - 1) (k - 1) tmp d hkne]
      rw [show k / 2 - 1 = i - 1 by omega]
      rw [agetD_asetD_self a (i - 1) tmp d hi1]
      exact hkids k h2k hkn heq.symm
    · have hkne : k - 1 ≠ i - 1 := by omega
      have hpne : k / 2 - 1 ≠ i - 1 := by omega
      rw [agetD_asetD_ne a (i - 1) (k - 1) tmp d hkne,
        agetD_asetD_ne a (i - 1) (k / 2 - 1) tmp d hpne]
      exact hheap k h2k hkn hgt
  · rw [agetD_asetD_self a (i - 1) tmp d hi1]
    exact htmp
  · intro p hp1 hpi _
    exact agetD_asetD_ne a (i - 1) (p - 1) tmp d (by omega)

/-- Full specification of the numpy sift loop: under the heap-except-hole
precondition it restores the heap order on all pairs at or below the
hole, the value placed at the hole is bounded by any bound dominating
the sifted value and the hole's children, positions outside the walked
range are untouched, the size is unchanged, and the multiset of cells
equals that of writing the sifted value directly into the hole. -/
theorem npSift_spec (key : α → ℤ) (d : α) (n' : Nat) :
    ∀ (m : Nat) (B : ℤ) (a : Array α) (tmp : α) (i j : Nat),
      n' + 1 - j ≤ m → 1 ≤ i → i ≤ n' → j = 2 * i → n' ≤ a.size →
      (∀ k, 2 ≤ k → k ≤ n' → i < k / 2 →
        key (agetD a (k - 1) d) ≤ key (agetD a (k / 2 - 1) d)) →
      key tmp ≤ B →
      (∀ k, 2 ≤ k → k ≤ n' → k / 2 = i → key (agetD a (k - 1) d) ≤ B) →
      ((∀ k, 2 ≤ k → k ≤ n' → i ≤ k / 2 →
          key (agetD (npSift key d tmp a i j n') (k - 1) d) ≤
            key (agetD (npSift key d tmp a i j n') (k / 2 - 1) d)) ∧
        key (agetD (npSift key d tmp a i j n') (i - 1) d) ≤ B ∧
        (∀ p, 1 ≤ p → p ≠ i → (p < 2 * i ∨ n' < p) →
          agetD (npSift key d tmp a i j n') (p - 1) d = agetD a (p - 1) d) ∧
        (npSift key d tmp a i j n').size = a.size ∧
        (((npSift key d tmp a i j n').toList : List α) : Multiset α) =
          (((asetD a (i - 1) tmp).toList : List α) : Multiset α)) := by
  intro m
  induction m with
  | zero =>
    intro B a tmp i j hm hi1 hin hij hsz hheap htmp hkB
    have hj : ¬ (j ≤ n' ∧ 1 ≤ j) := by omega
    have hres : npSift key d tmp a i j n' = asetD a (i - 1) tmp := by
      unfold npSift
      rw [dif_neg hj]
    rw [hres]
    have hkids : ∀ k, 2 ≤ k → k ≤ n' → k / 2 = i →
        key (agetD a (k - 1) d) ≤ key tmp := by
      intro k h2k hkn hki
      omega
    obtain ⟨p1, p2, p3, p4, _⟩ :=
      sift_write_post key d n' B a tmp i hi1 hin hsz hheap htmp hkids
    exact ⟨p1, p2, p3, p4, rfl⟩
  | succ m ih =>
    intro B a tmp i j hm hi1 hin hij hsz hheap htmp hkB
    by_cases hj : j ≤ n' ∧ 1 ≤ j
    · set j2 := if j < n' ∧ key (agetD a (j - 1) d) < key (agetD a j d) then j + 1 else j
        with hj2def
      have hres : npSift key d tmp a i j n' =
          if key tmp < key (agetD a (j2 - 1) d) then
            npSift key d tmp (asetD a (i - 1) (agetD a (j2 - 1) d)) j2 (2 * j2) n'
          else asetD a (i - 1) tmp := by
        conv_lhs => rw [npSift]
        rw [dif_pos hj]
      have hj2alt : (j2 = j + 1 ∧ j < n' ∧
            key (agetD a (j - 1) d) < key (agetD a j d)) ∨
          (j2 = j ∧ (j < n' → ¬ key (agetD a (j - 1) d) < key (agetD a j d))) := by
        rw [hj2def]
        split
        · next h => exact Or.inl ⟨rfl, h⟩
        · next h => exact Or.inr ⟨rfl, fun hjn hb => h ⟨hjn, hb⟩⟩
      have hj2n : j2 ≤ n' := by
        rcases hj2alt with ⟨he, hc, _⟩ | ⟨he, _⟩ <;> omega
      have hj2i : j2 / 2 = i := by
        rcases hj2alt with ⟨he, _, _⟩ | ⟨he, _⟩ <;> omega
      have hj2ge : j ≤ j2 := by
        rcases hj2alt with ⟨he, _, _⟩ | ⟨he, _⟩ <;> omega
      have hchild : ∀ c, (c = j ∨ c = j + 1) → c ≤ n' →
          key (agetD a (c - 1) d) ≤ key (agetD a (j2 - 1) d) := by
        intro c hc hcn
        rcases hj2alt with ⟨he, hlt2, hcmp⟩ | ⟨he, hcmp⟩
        · rcases hc with rfl | rfl
          · rw [he]
            simpa using le_of_lt hcmp
          · rw [he]
        · rcases hc with rfl | rfl
          · rw [he]
          · rw [he]
            have := hcmp (by omega)
            simpa using le_of_not_lt this
      by_cases hlt : key tmp < key (agetD a (j2 - 1) d)
      · rw [hres, if_pos hlt]
        set v := agetD a (j2 - 1) d with hvdef
        set a2 := asetD a (i - 1) v with ha2def
        have hi1b : i - 1 < a.size := by omega
        have hj21b : j2 - 1 < a.size := by omega
        have hij2 : i < j2 := by omega
        have ha2get : ∀ p, p ≠ i - 1 → agetD a2 p d = agetD a p d := by
          intro p hp
          rw [ha2def]
          exact agetD_asetD_ne a (i - 1) p v d hp
        have ha2i : agetD a2 (i - 1) d = v := by
          rw [ha2def]
          exact agetD_asetD_self a (i - 1) v d hi1b
        have ha2sz : a2.size = a.size := by rw [ha2def]; exact asetD_size _ _ _
        have hih := ih (key v) a2 tmp j2 (2 * j2) (by omega) (by omega) hj2n rfl
          (by omega)
          (by
            intro k h2k hkn hgt
            rw [ha2get (k - 1) (by omega), ha2get (k / 2 - 1) (by omega)]
            exact hheap k h2k hkn (by omega))
          (le_of_lt hlt)
          (by
            intro k h2k hkn hki
            rw [ha2get (k - 1) (by omega)]
            have hkj2 : i < k / 2 := by omega
            have hh := hheap k h2k hkn hkj2
            rw [hki] at hh
            rw [hvdef]
            exact hh)
        obtain ⟨q1, q2, q3, q4, q5⟩ := hih
        set S := npSift key d tmp a2 j2 (2 * j2) n' with hSdef
        have hSi : agetD S (i - 1) d = v := by
          rw [q3 i hi1 (by omega) (by omega)]
          exact ha2i
        refine ⟨?_, ?_, ?_, ?_, ?_⟩
        · intro k h2k hkn hik
          rcases Nat.lt_or_ge (k / 2) j2 with hklt | hkge
          · rcases Nat.eq_or_lt_of_le hik with heq | hgt
            · have hk2i : k / 2 = i := heq.symm
              have hkjj : k = j ∨ k = j + 1 := by omega
              rw [show k / 2 - 1 = i - 1 by omega, hSi]
              by_cases hkj2 : k = j2
              · rw [hkj2]
                exact q2
              · have hSk : agetD S (k - 1) d = agetD a (k - 1) d := by
                  rw [q3 k (by omega) (by omega) (by omega)]
                  exact ha2get (k - 1) (by omega)
                rw [hSk]
                exact hchild k hkjj hkn
            · have hkSk : agetD S (k - 1) d = agetD a (k - 1) d := by
                rw [q3 k (by omega) (by omega) (by omega)]
                exact ha2get (k - 1) (by omega)
              have hkSp : agetD S (k / 2 - 1) d = agetD a (k / 2 - 1) d := by
                rw [q3 (k / 2) (by omega) (by omega) (by omega)]
                exact ha2get (k / 2 - 1) (by omega)
              rw [hkSk, hkSp]
              exact hheap k h2k hkn hgt
          · exact q1 k h2k hkn hkge
        · rw [hSi]
          exact hkB j2 (by omega) hj2n hj2i
        · intro p hp1 hpi hpr
          rw [q3 p hp1 (by omega) (by omega)]
          exact ha2get (p - 1) (by omega)
        · rw [q4, ha2sz]
        · rw [q5]
          have hlen : a.toList.length = a.size := Array.length_toList
          have hi1l : i - 1 < a.toList.length := by omega
          have hj21l : j2 - 1 < a.toList.length := by omega
          have ha2list : a2.toList = a.toList.set (i - 1) v := by
            rw [ha2def]
            exact asetD_toList a (i - 1) v hi1b
          have hsetlist : (asetD a2 (j2 - 1) tmp).toList =
              (a.toList.set (i - 1) v).set (j2 - 1) tmp := by
            rw [asetD_toList a2 (j2 - 1) tmp (by omega), ha2list]
          have hsetlist2 : (asetD a (i - 1) tmp).toList = a.toList.set (i - 1) tmp := by
            exact asetD_toList a (i - 1) tmp hi1b
          rw [hsetlist, hsetlist2]
          refine Multiset.coe_eq_coe.mpr ?_
          have hLlen : (a.toList.set (i - 1) tmp).length = a.toList.length := by simp
          have hi1L : i - 1 < (a.toList.set (i - 1) tmp).length := by omega
          have hj21L : j2 - 1 < (a.toList.set (i - 1) tmp).length := by omega
          have hLi : (a.toList.set (i - 1) tmp).get ⟨i - 1, hi1L⟩ = tmp := by
            simp only [List.get_eq_getElem]
            exact List.getElem_set_self (by omega)
          have hLj : (a.toList.set (i - 1) tmp).get ⟨j2 - 1, hj21L⟩ = v := by
            simp only [List.get_eq_getElem]
            rw [List.getElem_set_ne (by omega)]
            rw [hvdef, agetD_eq_get a (j2 - 1) d hj21b]
            rfl
          have hperm := set_swap_perm (a.toList.set (i - 1) tmp)
            (i - 1) (j2 - 1) hi1L hj21L
          rw [hLi, hLj] at hperm
          have hcollapse : (a.toList.set (i - 1) tmp).set (i - 1) v =
              a.toList.set (i - 1) v := List.set_set tmp v a.toList (i - 1)
          rw [hcollapse] at hperm
          exact hperm
      · rw [hres, if_neg hlt]
        have hkids : ∀ k, 2 ≤ k → k ≤ n' → k / 2 = i →
            key (agetD a (k - 1) d) ≤ key tmp := by
          intro k h2k hkn hki
          have hkjj : k = j ∨ k = j + 1 := by omega
          exact (hchild k hkjj hkn).trans (le_of_not_lt hlt)
        obtain ⟨p1, p2, p3, p4, _⟩ :=
          sift_write_post key d n' B a tmp i hi1 hin hsz hheap htmp hkids
        exact ⟨p1, p2, p3, p4, rfl⟩
    · have hres : npSift key d tmp a i j n' = asetD a (i - 1) tmp := by
        unfold npSift
        rw [dif_neg hj]
      rw [hres]
      have hkids : ∀ k, 2 ≤ k → k ≤ n' → k / 2 = i →
          key (agetD a (k - 1) d) ≤ key tmp := by
        intro k h2k hkn hki
        omega
      obtain ⟨p1, p2, p3, p4, _⟩ :=
        sift_write_post key d n' B a tmp i hi1 hin hsz hheap htmp hkids
      exact ⟨p1, p2, p3, p4, rfl⟩

/-- Heapify correctness: sifting positions l down to 1 turns every pair
whose parent is at most l into a heap pair, so starting from n/2 the
whole array becomes a max-heap; size and multiset of cells are kept. -/
theorem npHeapBuild_spec (key : α → ℤ) (d : α) (n' : Nat) :
    ∀ (l : Nat) (a : Array α), 2 * l ≤ n' → n' ≤ a.size →
      (∀ k, 2 ≤ k → k ≤ n' → l < k / 2 →
        key (agetD a (k - 1) d) ≤ key (agetD a (k / 2 - 1) d)) →
      ((∀ k, 2 ≤ k → k ≤ n' →
          key (agetD (npHeapBuild key d a n' l) (k - 1) d) ≤
            key (agetD (npHeapBuild key d a n' l) (k / 2 - 1) d)) ∧
        (npHeapBuild key d a n' l).size = a.size ∧
        (((npHeapBuild key d a n' l).toList : List α) : Multiset α) =
          ((a.toList : List α) : Multiset α)) := by
  intro l
  induction l with
  | zero =>
    intro a h2l hsz hheap
    exact ⟨fun k h2k hkn => hheap k h2k hkn (by omega), rfl, rfl⟩
  | succ l ih =>
    intro a h2l hsz hheap
    set tmp := agetD a l d with htmpdef
    set B := max (key tmp)
      (max (key (agetD a (2 * l + 1) d)) (key (agetD a (2 * l + 2) d))) with hBdef
    obtain ⟨s1, s2, s3, s4, s5⟩ :=
      npSift_spec key d n' (n' + 1) B a tmp (l + 1) (2 * (l + 1))
        (by omega) (by omega) (by omega) rfl hsz
        (by intro k h2k hkn hgt; exact hheap k h2k hkn (by omega))
        (le_max_left _ _)
        (by
          intro k h2k hkn hki
          have hk23 : k = 2 * l + 2 ∨ k = 2 * l + 3 := by omega
          rcases hk23 with rfl | rfl
          · have he : 2 * l + 2 - 1 = 2 * l + 1 := by omega
            rw [he, hBdef]
            exact le_trans (le_max_left _ _) (le_max_right _ _)
          · have he : 2 * l + 3 - 1 = 2 * l + 2 := by omega
            rw [he, hBdef]
            exact le_trans (le_max_right _ _) (le_max_right _ _))
    set a1 := npSift key d tmp a (l + 1) (2 * (l + 1)) n' with ha1def
    have hunf : npHeapBuild key d a n' (l + 1) = npHeapBuild key d a1 n' l := rfl
    have hsz1 : n' ≤ a1.size := by rw [s4]; exact hsz
    obtain ⟨t1, t2, t3⟩ := ih a1 (by omega) hsz1
      (by intro k h2k hkn hgt; exact s1 k h2k hkn (by omega))
    rw [hunf]
    refine ⟨t1, ?_, ?_⟩
    · rw [t2, s4]
    · rw [t3, s5]
      have hla : l < a.size := by omega
      have hll : l < a.toList.length := by
        have : a.toList.length = a.size := Array.length_toList
        omega
      have he : l + 1 - 1 = l := by omega
      rw [he, asetD_toList a l tmp hla]
      rw [htmpdef, agetD_eq_get a l d hla]
      rw [set_get_self a.toList l hll]

/-- In a max-heap the root dominates every cell of the heap segment. -/
theorem heap_max (key : α → ℤ) (d : α) (a : Array α) (m : Nat)
    (hheap : ∀ k, 2 ≤ k → k ≤ m →
      key (agetD a (k - 1) d) ≤ key (agetD a (k / 2 - 1) d)) :
    ∀ k, 1 ≤ k → k ≤ m → key (agetD a (k - 1) d) ≤ key (agetD a 0 d) := by
  intro k
  induction k using Nat.strong_induction_on with
  | _ k ih =>
    intro h1 hm
    rcases Nat.lt_or_ge k 2 with h2 | h2
    · have hk1 : k = 1 := by omega
      subst hk1
      exact le_refl _
    · have hstep := hheap k h2 hm
      have hrest := ih (k / 2) (by omega) (by omega) (by omega)
      exact hstep.trans hrest

/-- Extraction correctness: starting from a max-heap of size m whose
tail beyond m is sorted and dominates the heap cells, repeatedly moving
the root to the end of the shrinking heap leaves the whole array sorted
by key, with size and multiset of cells unchanged. -/
theorem npHeapExtract_spec (key : α → ℤ) (d : α) :
    ∀ (m : Nat) (a : Array α), m ≤ a.size →
      (∀ k, 2 ≤ k → k ≤ m →
        key (agetD a (k - 1) d) ≤ key (agetD a (k / 2 - 1) d)) →
      (∀ p q, m + 1 ≤ p → p ≤ q → q ≤ a.size →
        key (agetD a (p - 1) d) ≤ key (agetD a (q - 1) d)) →
      (∀ k p, 1 ≤ k → k ≤ m → m + 1 ≤ p → p ≤ a.size →
        key (agetD a (k - 1) d) ≤ key (agetD a (p - 1) d)) →
      ((npHeapExtract key d a m).size = a.size ∧
        (((npHeapExtract key d a m).toList : List α) : Multiset α) =
          ((a.toList : List α) : Multiset α) ∧
        (∀ p q, 1 ≤ p → p ≤ q → q ≤ a.size →
          key (agetD (npHeapExtract key d a m) (p - 1) d) ≤
            key (agetD (npHeapExtract key d a m) (q - 1) d))) := by
  intro m
  induction m with
  | zero =>
    intro a hm hheap hsuf hbound
    refine ⟨rfl, rfl, ?_⟩
    intro p q hp hpq hq
    exact hsuf p q (by omega) hpq hq
  | succ n ihn =>
    intro a hm hheap hsuf hbound
    cases n with
    | zero =>
      refine ⟨rfl, rfl, ?_⟩
      intro p q hp hpq hq
      rcases Nat.lt_or_ge p 2 with hp2 | hp2
      · have hp1 : p = 1 := by omega
        subst hp1
        rcases Nat.eq_or_lt_of_le hpq with rfl | hq2
        · exact le_refl _
        · exact hbound 1 q (by omega) (by omega) (by omega) hq
      · exact hsuf p q (by omega) hpq hq
    | succ n0 =>
      set tmp := agetD a (n0 + 1) d with htmpdef
      set a1 := asetD a (n0 + 1) (agetD a 0 d) with ha1def
      have hn1a : n0 + 1 < a.size := by omega
      have h0a : 0 < a.size := by omega
      have ha1sz : a1.size = a.size := by rw [ha1def]; exact asetD_size _ _ _
      have ha1get : ∀ p, p ≠ n0 + 1 → agetD a1 p d = agetD a p d := by
        intro p hp
        rw [ha1def]
        exact agetD_asetD_ne a (n0 + 1) p _ d hp
      have ha1last : agetD a1 (n0 + 1) d = agetD a 0 d := by
        rw [ha1def]
        exact agetD_asetD_self a (n0 + 1) _ d hn1a
      have hmax := heap_max key d a (n0 + 2) hheap
      obtain ⟨s1, s2, s3, s4, s5⟩ :=
        npSift_spec key d (n0 + 1) (n0 + 2) (key (agetD a 0 d)) a1 tmp 1 2
          (by omega) (by omega) (by omega) rfl (by omega)
          (by
            intro k h2k hkn hgt
            rw [ha1get (k - 1) (by omega), ha1get (k / 2 - 1) (by omega)]
            exact hheap k h2k (by omega))
          (by
            rw [htmpdef]
            exact hmax (n0 + 2) (by omega) (by omega))
          (by
            intro k h2k hkn hki
            rw [ha1get (k - 1) (by omega)]
            exact hmax k (by omega) (by omega))
      set S := npSift key d tmp a1 1 2 (n0 + 1) with hSdef
      have hunf : npHeapExtract key d a (n0 + 2) = npHeapExtract key d S (n0 + 1) := rfl
      have hSsz : S.size = a.size := by rw [s4, ha1sz]
      have hSlast : agetD S (n0 + 1) d = agetD a 0 d := by
        have h := s3 (n0 + 2) (by omega) (by omega) (by omega)
        have he : n0 + 2 - 1 = n0 + 1 := by omega
        rw [he] at h
        rw [h]
        exact ha1last
      have hStail : ∀ p, n0 + 3 ≤ p → p ≤ a.size → agetD S (p - 1) d = agetD a (p - 1) d := by
        intro p hp3 hpa
        rw [s3 p (by omega) (by omega) (by omega)]
        exact ha1get (p - 1) (by omega)
      have hSmax := heap_max key d S (n0 + 1) (fun k h2k hkn => s1 k h2k hkn (by omega))
      have hSheapB : ∀ k, 1 ≤ k → k ≤ n0 + 1 →
          key (agetD S (k - 1) d) ≤ key (agetD a 0 d) := by
        intro k h1k hkn
        exact (hSmax k h1k hkn).trans s2
      obtain ⟨t1, t2, t3⟩ := ihn S (by omega)
        (fun k h2k hkn => s1 k h2k (by omega) (by omega))
        (by
          intro p q hp hpq hq
          rw [hSsz] at hq
          rcases Nat.eq_or_lt_of_le hp with rfl | hp3
          · rcases Nat.eq_or_lt_of_le hpq with rfl | hq3
            · exact le_refl _
            · have he : n0 + 1 + 1 - 1 = n0 + 1 := by omega
              rw [he, hSlast, hStail q (by omega) hq]
              exact hbound 1 q (by omega) (by omega) (by omega) hq
          · rw [hStail p (by omega) (by omega), hStail q (by omega) hq]
            exact hsuf p q (by omega) hpq hq)
        (by
          intro k p h1k hkn hp hpa
          rw [hSsz] at hpa
          rcases Nat.eq_or_lt_of_le hp with rfl | hp3
          · have he : n0 + 1 + 1 - 1 = n0 + 1 := by omega
            rw [he, hSlast]
            exact hSheapB k h1k hkn
          · rw [hStail p (by omega) hpa]
            refine (hSheapB k h1k hkn).trans ?_
            exact hbound 1 p (by omega) (by omega) (by omega) hpa)
      rw [hunf]
      refine ⟨?_, ?_, ?_⟩
      · rw [t1, hSsz]
      · rw [t2, s5]
        have hlen : a.toList.length = a.size := Array.length_toList
        have h0l : (0 : Nat) < a.toList.length := by omega
        have hn1l : n0 + 1 < a.toList.length := by omega
        have h1e : (1 : Nat) - 1 = 0 := by omega
        rw [h1e]
        have ha1list : a1.toList = a.toList.set (n0 + 1) (agetD a 0 d) := by
          rw [ha1def]
          exact asetD_toList a (n0 + 1) _ hn1a
        have hset2 : (asetD a1 0 tmp).toList =
            (a.toList.set (n0 + 1) (agetD a 0 d)).set 0 tmp := by
          rw [asetD_toList a1 0 tmp (by omega), ha1list]
        rw [hset2]
        refine Multiset.coe_eq_coe.mpr ?_
        have hg0 : agetD a 0 d = a.toList.get ⟨0, h0l⟩ := agetD_eq_get a 0 d h0a
        have hgn : tmp = a.toList.get ⟨n0 + 1, hn1l⟩ := by
          rw [htmpdef]
          exact agetD_eq_get a (n0 + 1) d hn1a
        rw [hg0, hgn]
        exact set_swap_perm a.toList (n0 + 1) 0 hn1l h0l
      · intro p q hp hpq hq
        rw [← hSsz] at hq
        exact t3 p q hp hpq hq

/-- The numpy heapsort permutes its input and leaves it nondecreasing in
the sort key. -/
theorem npHeapsort_spec (key : α → ℤ) (l : List α) :
    (npHeapsort key l).Perm l ∧
      (npHeapsort key l).Pairwise (fun u v => key u ≤ key v) := by
  match l with
  | [] => exact ⟨List.Perm.nil, List.Pairwise.nil⟩
  | x :: xs =>
    set a := (x :: xs).toArray with hadef
    have hN : a.size = (x :: xs).length := by rw [hadef]
    have hNpos : 0 < a.size := by rw [hN]; simp
    obtain ⟨b1, b2, b3⟩ := npHeapBuild_spec key x a.size (a.size / 2) a
      (by omega) (le_refl _) (by intro k h2k hkn hgt; omega)
    set Bld := npHeapBuild key x a a.size (a.size / 2) with hB
    obtain ⟨e1, e2, e3⟩ := npHeapExtract_spec key x a.size Bld (by omega) b1
      (by intro p q hp hpq hq; exfalso; rw [b2] at hq; omega)
      (by intro k p h1k hkn hp hpa; exfalso; rw [b2] at hpa; omega)
    set R := npHeapExtract key x Bld a.size with hR
    have hres : npHeapsort key (x :: xs) = R.toList := rfl
    rw [hres]
    have hlen : R.toList.length = R.size := Array.length_toList
    have hRsz : R.size = a.size := by rw [e1, b2]
    constructor
    · refine Multiset.coe_eq_coe.mp ?_
      rw [e2, b3, hadef]
    · rw [List.pairwise_iff_getElem]
      intro i j hi hj hij
      have hja : j < a.size := by omega
      have h3 := e3 (i + 1) (j + 1) (by omega) (by omega) (by rw [b2]; omega)
      simp only [Nat.add_sub_cancel] at h3
      rw [agetD_eq_get R i x (by omega), agetD_eq_get R j x (by omega)] at h3
      simpa using h3

/-- The partitioning loop of the numpy quicksort permutes its segment
and leaves it nondecreasing in the sort key, whatever the remaining
depth budget: short segments by the insertion sort, longer ones by
partitioning, recursing, and falling back on heapsort when the budget
runs out. -/
theorem npWhileLoop_spec (key : α → ℤ) :
    ∀ (n : Nat) (l : List α) (cdepth : ℤ), l.length ≤ n →
      ((npWhileLoop key cdepth l).Perm l ∧
        (npWhileLoop key cdepth l).Pairwise (fun u v => key u ≤ key v)) := by
  intro n
  induction n with
  | zero =>
    intro l cdepth hn
    have h16 : l.length ≤ 16 := by omega
    have hres : npWhileLoop key cdepth l = npInsSort key l := by
      rw [npWhileLoop, dif_pos h16]
    rw [hres]
    exact ⟨npInsSort_perm key l, npInsSort_pairwise key l⟩
  | succ n ih =>
    intro l cdepth hn
    by_cases h16 : l.length ≤ 16
    · have hres : npWhileLoop key cdepth l = npInsSort key l := by
        rw [npWhileLoop, dif_pos h16]
      rw [hres]
      exact ⟨npInsSort_perm key l, npInsSort_pairwise key l⟩
    · have hproc : ∀ (c : ℤ) (l2 : List α), l2.length ≤ n →
          ((npProcessRange key c l2).Perm l2 ∧
            (npProcessRange key c l2).Pairwise (fun u v => key u ≤ key v)) := by
        intro c l2 hl2
        have hunf : npProcessRange key c l2 =
            if c < 0 then npHeapsort key l2 else npWhileLoop key c l2 := by
          rw [npProcessRange]
        rw [hunf]
        split
        · exact npHeapsort_spec key l2
        · exact ih l2 c hl2
      cases l with
      | nil => simp at h16
      | cons x xs =>
        have h17 : 17 ≤ (x :: xs).length := by omega
        obtain ⟨hperm, hlow, hhigh⟩ := npPartition_spec key (x :: xs) x h17
        have hsizes := npPartition_sizes key (x :: xs) x (by omega)
        have hres : npWhileLoop key cdepth (x :: xs) =
            if (npPartition key (x :: xs) x).1.length <
                (npPartition key (x :: xs) x).2.2.length then
              npWhileLoop key (cdepth - 1) (npPartition key (x :: xs) x).1 ++
                (npPartition key (x :: xs) x).2.1 ::
                  npProcessRange key (cdepth - 1) (npPartition key (x :: xs) x).2.2
            else
              npProcessRange key (cdepth - 1) (npPartition key (x :: xs) x).1 ++
                (npPartition key (x :: xs) x).2.1 ::
                  npWhileLoop key (cdepth - 1) (npPartition key (x :: xs) x).2.2 := by
          conv_lhs => rw [npWhileLoop]
          rw [dif_neg h16]
        set t1 := (npPartition key (x :: xs) x).1 with ht1
        set tp := (npPartition key (x :: xs) x).2.1 with htp
        set t2 := (npPartition key (x :: xs) x).2.2 with ht2
        have hl1 : t1.length ≤ n := by omega
        have hl2 : t2.length ≤ n := by omega
        rw [hres]
        by_cases hc : t1.length < t2.length
        · rw [if_pos hc]
          obtain ⟨hWp, hWs⟩ := ih t1 (cdepth - 1) hl1
          obtain ⟨hPp, hPs⟩ := hproc (cdepth - 1) t2 hl2
          constructor
          · exact (List.Perm.append hWp (hPp.cons tp)).trans hperm
          · refine List.pairwise_append.mpr ⟨hWs, ?_, ?_⟩
            · refine List.Pairwise.cons ?_ hPs
              intro b hb
              exact hhigh b (hPp.mem_iff.mp hb)
            · intro u hu b hb
              have hu1 : key u ≤ key tp := hlow u (hWp.mem_iff.mp hu)
              rcases List.mem_cons.mp hb with rfl | hb2
              · exact hu1
              · exact hu1.trans (hhigh b (hPp.mem_iff.mp hb2))
        · rw [if_neg hc]
          obtain ⟨hWp, hWs⟩ := hproc (cdepth - 1) t1 hl1
          obtain ⟨hPp, hPs⟩ := ih t2 (cdepth - 1) hl2
          constructor
          · exact (List.Perm.append hWp (hPp.cons tp)).trans hperm
          · refine List.pairwise_append.mpr ⟨hWs, ?_, ?_⟩
            · refine List.Pairwise.cons ?_ hPs
              intro b hb
              exact hhigh b (hPp.mem_iff.mp hb)
            · intro u hu b hb
              have hu1 : key u ≤ key tp := hlow u (hWp.mem_iff.mp hu)
              rcases List.mem_cons.mp hb with rfl | hb2
              · exact hu1
              · exact hu1.trans (hhigh b (hPp.mem_iff.mp hb2))

/-- The numpy introsort (np.sort default quicksort kind) permutes its
input and sorts it nondecreasing in the key. -/
theorem npQuicksortBy_spec (key : α → ℤ) (l : List α) :
    (npQuicksortBy key l).Perm l ∧
      (npQuicksortBy key l).Pairwise (fun u v => key u ≤ key v) := by
  have hunf : npQuicksortBy key l =
      npProcessRange key (2 * Nat.log2 l.length) l := rfl
  rw [hunf]
  have hunf2 : npProcessRange key (2 * Nat.log2 l.length) l =
      if (2 * Nat.log2 l.length : ℤ) < 0 then npHeapsort key l
      else npWhileLoop key (2 * Nat.log2 l.length) l := by
    rw [npProcessRange]
  rw [hunf2]
  split
  · exact npHeapsort_spec key l
  · exact npWhileLoop_spec key l.length l (2 * Nat.log2 l.length) (le_refl _)

/-- C6 (amended): combine_marketing_data keeps every row of the three
cleaned platform tables — the combined table is a permutation of the
concatenation Facebook ++ Google ++ TikTok, nothing dropped or
de-duplicated across platforms — and is sorted ascending by date.  The
sort is sort_values with the pandas default kind quicksort (the numpy
introsort), which is not stable, so rows sharing a date need not keep
their relative input order. -/
theorem c6_combine_amended (fb g tt : MkDF) (f gg t out : List MkRow)
    (hf : clean_marketing_data fb "Facebook" = .ok f)
    (hg : clean_marketing_data g "Google" = .ok gg)
    (ht : clean_marketing_data tt "TikTok" = .ok t)
    (hout : combine_marketing_data fb g tt = .ok out) :
    out.Perm (f ++ gg ++ t) ∧
      out.Pairwise (fun u v => u.date ≤ v.date) := by
  have hout2 : combine_marketing_data fb g tt =
      .ok (sortValuesByDate (f ++ gg ++ t)) := by
    unfold combine_marketing_data
    rw [hf, hg, ht]
  rw [hout2] at hout
  have heq : sortValuesByDate (f ++ gg ++ t) = out := Except.ok.inj hout
  subst heq
  obtain ⟨hp, hs⟩ := npQuicksortBy_spec (fun r : MkRow => r.date) (f ++ gg ++ t)
  exact ⟨hp, hs⟩

/-- Witness for C6 (amended): the concrete scenario tables, one Facebook
record and empty Google and TikTok tables. -/
theorem c6_combine_amended_witness :
    ([{ date := 20240101, platform := "Facebook",
               impression := FVal.num 2000, clicks := FVal.num 40,
               spend := FVal.num 100, attributed_revenue := FVal.num 150,
               ctr := FVal.num 2, cpc := FVal.num (5/2), roas := FVal.num (3/2),
               cpm := FVal.num 50, rowid := 0 }] : List MkRow).Perm
      (([{ date := 20240101, platform := "Facebook",
               impression := FVal.num 2000, clicks := FVal.num 40,
               spend := FVal.num 100, attributed_revenue := FVal.num 150,
               ctr := FVal.num 2, cpc := FVal.num (5/2), roas := FVal.num (3/2),
               cpm := FVal.num 50, rowid := 0 }] : List MkRow) ++ [] ++ []) ∧
      ([{ date := 20240101, platform := "Facebook",
               impression := FVal.num 2000, clicks := FVal.num 40,
               spend := FVal.num 100, attributed_revenue := FVal.num 150,
               ctr := FVal.num 2, cpc := FVal.num (5/2), roas := FVal.num (3/2),
               cpm := FVal.num 50, rowid := 0 }] : List MkRow).Pairwise (fun u v => u.date ≤ v.date) :=
  c6_combine_amended c5fbDF emptyMkDF emptyMkDF
    [{ date := 20240101, platform := "Facebook",
               impression := FVal.num 2000, clicks := FVal.num 40,
               spend := FVal.num 100, attributed_revenue := FVal.num 150,
               ctr := FVal.num 2, cpc := FVal.num (5/2), roas := FVal.num (3/2),
               cpm := FVal.num 50, rowid := 0 }] [] []
    [{ date := 20240101, platform := "Facebook",
               impression := FVal.num 2000, clicks := FVal.num 40,
               spend := FVal.num 100, attributed_revenue := FVal.num 150,
               ctr := FVal.num 2, cpc := FVal.num (5/2), roas := FVal.num (3/2),
               cpm := FVal.num 50, rowid := 0 }]
    (by with_unfolding_all rfl) (by with_unfolding_all rfl)
    (by with_unfolding_all rfl) (by with_unfolding_all rfl)
